import Mathlib

/-!
Verification development for the `lex` lexer generator (Rust).

Shallow embedding notes.
* Rust `char` is modelled as `Nat` (the code point); the program restricts
  itself to 7-bit ASCII, so all concrete characters below are `< 128`.
* `BTreeSet<T>` is modelled as `Finset Nat`.
* `BTreeMap<K, V>` is modelled as an association list; `insert` prepends the
  new binding and `get` returns the newest binding, so the lookup semantics
  coincide with the Rust map.  The only iterations the embedded code performs
  over such maps are union-accumulations, which absorb shadowed bindings.
* `StateID = usize` is modelled as `Nat`, `Action = String` as `String`.
* `while` loops are embedded as recursive functions; where the Rust loop has
  no structural measure (the epsilon-closure worklist, the subset-construction
  worklist) the recursion carries an explicit fuel that provably (for the
  closure) or generously (for the subset construction) bounds the number of
  iterations the Rust loop performs.
-/

namespace Lex

/-- Transition label, from `symbol.rs` (`Symbol`) and `transition.rs`
(`TransitionSymbol`, an identical enum): epsilon, a single character, or a
finite character set. -/
inductive Sym where
  | eps : Sym
  | ch : Nat → Sym
  | cls : Finset Nat → Sym
deriving DecidableEq

/-- `BTreeMap<(StateID, Symbol), BTreeSet<StateID>>` lookup (`.get`). -/
def transLookup (l : List ((Nat × Sym) × Finset Nat)) (k : Nat × Sym) :
    Option (Finset Nat) :=
  (l.find? (fun e => decide (e.1 = k))).map (fun e => e.2)

/-- `transitions.entry(key).or_insert(BTreeSet::new()).insert(to)`: the set
bound to `key` grows by `dst`.  The new binding shadows the old one. -/
def transInsertAdd (l : List ((Nat × Sym) × Finset Nat)) (k : Nat × Sym)
    (dst : Nat) : List ((Nat × Sym) × Finset Nat) :=
  (k, insert dst ((transLookup l k).getD ∅)) :: l

/-- `BTreeMap<StateID, Action>` lookup. -/
def actLookup (l : List (Nat × String)) (k : Nat) : Option String :=
  (l.find? (fun e => decide (e.1 = k))).map (fun e => e.2)

/-- `BTreeMap<StateID, Action>` insert (newest binding wins on lookup). -/
def actInsert (l : List (Nat × String)) (k : Nat) (v : String) :
    List (Nat × String) :=
  (k, v) :: l

/-- Ascending iteration over a `BTreeSet<usize>`: the members of the set,
enumerated in increasing order. -/
def ascList (s : Finset Nat) : List Nat :=
  (List.range (s.max.getD 0 + 1)).filter (fun x => decide (x ∈ s))

/-- Kernel-friendly equality test of two `BTreeSet<usize>` keys. -/
def setEq (a b : Finset Nat) : Bool :=
  decide (a ⊆ b) && decide (b ⊆ a)

/-- `NFA` from `nfa.rs`: states, alphabet, non-deterministic transition map,
start state, final states, and the partial action map. -/
structure NFA where
  states : Finset Nat
  alphabet : Finset Nat
  transitions : List ((Nat × Sym) × Finset Nat)
  start_state : Nat
  final_states : Finset Nat
  actions : List (Nat × String)
deriving DecidableEq

namespace NFA

/-- `Default for NFA`: everything empty, start state 0. -/
def defaultNFA : NFA :=
  { states := ∅, alphabet := ∅, transitions := [], start_state := 0,
    final_states := ∅, actions := [] }

/-- `NFA::add_state`: the new id is 0 when there are no states, else the
maximum id plus one.  Returns the grown NFA and the new id. -/
def add_state (nfa : NFA) : NFA × Nat :=
  let state := if nfa.states = ∅ then 0 else (nfa.states.max.getD 0) + 1
  ({ nfa with states := insert state nfa.states }, state)

/-- `NFA::add_action`. -/
def add_action (nfa : NFA) (state : Nat) (action : String) : NFA :=
  { nfa with actions := actInsert nfa.actions state action }

/-- `NFA::add_transition`: record the edge, then grow the alphabet from the
symbol (nothing for epsilon, the char for `Char`, every member for
`CharClass`). -/
def add_transition (nfa : NFA) (src : Nat) (symbol : Sym) (dst : Nat) : NFA :=
  let nfa1 := { nfa with transitions := transInsertAdd nfa.transitions (src, symbol) dst }
  match symbol with
  | Sym.eps => nfa1
  | Sym.ch c => { nfa1 with alphabet := insert c nfa1.alphabet }
  | Sym.cls s => { nfa1 with alphabet := nfa1.alphabet ∪ s }

/-- `NFA::empty`: two states, an epsilon edge from start to final. -/
def empty : NFA :=
  let p1 := defaultNFA.add_state
  let p2 := p1.1.add_state
  let nfa := { p2.1 with start_state := p1.2,
                         final_states := insert p2.2 p2.1.final_states }
  nfa.add_transition p1.2 Sym.eps p2.2

/-- `NFA::char`: two states, a `Char c` edge from start to final. -/
def char (c : Nat) : NFA :=
  let p1 := defaultNFA.add_state
  let p2 := p1.1.add_state
  let nfa := { p2.1 with start_state := p1.2,
                         final_states := insert p2.2 p2.1.final_states }
  nfa.add_transition p1.2 (Sym.ch c) p2.2

/-- `NFA::char_class`. -/
def char_class (chars : Finset Nat) : NFA :=
  let p1 := defaultNFA.add_state
  let p2 := p1.1.add_state
  let nfa := { p2.1 with start_state := p1.2,
                         final_states := insert p2.2 p2.1.final_states }
  nfa.add_transition p1.2 (Sym.cls chars) p2.2

/-- `NFA::negated_char_class`: the class built from every ASCII char
(`0..128`) not in `class`. -/
def negated_char_class (class0 : Finset Nat) : NFA :=
  char_class ((Finset.range 128).filter (fun c => c ∉ class0))

/-- `NFA::dot`: the char class of all 128 ASCII chars (`for c in 0..128u8`);
note that the newline character 10 is a member. -/
def dot : NFA :=
  char_class (Finset.range 128)

/-- One iteration of the state-copying loops in `NFA::concat` / `NFA::union`:
allocate a fresh state for the old state `s`, extend the old-to-new map, and
copy the action attached to `s` (if any) to the new state.  This copies the
action of every state of `src`, not only of its finals. -/
def importStep (src : NFA) (p : NFA × List (Nat × Nat)) (s : Nat) :
    NFA × List (Nat × Nat) :=
  let q := p.1.add_state
  let nfa2 :=
    match actLookup src.actions s with
    | some a => { q.1 with actions := actInsert q.1.actions q.2 a }
    | none => q.1
  (nfa2, p.2 ++ [(s, q.2)])

/-- The state-copying loop of `NFA::concat` / `NFA::union`, over the states
of `src` in ascending order. -/
def importAll (acc : NFA × List (Nat × Nat)) (src : NFA) :
    NFA × List (Nat × Nat) :=
  (ascList src.states).foldl (importStep src) acc

/-- As `importAll` but without copying actions: the state-copying loops of
`NFA::kleene` and `NFA::optional`. -/
def importNoAct (acc : NFA × List (Nat × Nat)) (src : NFA) :
    NFA × List (Nat × Nat) :=
  (ascList src.states).foldl
    (fun p s =>
      let q := p.1.add_state
      (q.1, p.2 ++ [(s, q.2)])) acc

/-- `map[&state]` (panics in Rust when absent; total here, absent ↦ 0). -/
def mapApply (m : List (Nat × Nat)) (s : Nat) : Nat :=
  ((m.find? (fun e => decide (e.1 = s))).map (fun e => e.2)).getD 0

/-- The transition-copying loops: for every `((from, symbol), to_states)` of
`src` and every `to` in `to_states`, `add_transition(m[from], symbol, m[to])`. -/
def copyTransitions (acc : NFA) (m : List (Nat × Nat)) (src : NFA) : NFA :=
  src.transitions.foldl
    (fun nfa e =>
      (ascList e.2).foldl
        (fun nfa2 t => nfa2.add_transition (mapApply m e.1.1) e.1.2 (mapApply m t))
        nfa) acc

/-- The loop of `NFA::concat` that adds an epsilon edge from each (remapped)
final of `first` to the remapped start of `second` (nfa.rs 224–230). -/
def concatLinkFinals (acc : NFA) (firstMap secondMap : List (Nat × Nat))
    (first second : NFA) : NFA :=
  (ascList first.final_states).foldl
    (fun nfa f =>
      nfa.add_transition (mapApply firstMap f) Sym.eps
        (mapApply secondMap second.start_state))
    acc

/-- One iteration of the finals loop of `NFA::concat`: mark the remapped
final of `second` as final and re-copy its action. -/
def takeFinalsStep (secondMap : List (Nat × Nat)) (second : NFA)
    (nfa : NFA) (f : Nat) : NFA :=
  let nfaA := { nfa with final_states := insert (mapApply secondMap f) nfa.final_states }
  match actLookup second.actions f with
  | some a => { nfaA with actions := actInsert nfaA.actions (mapApply secondMap f) a }
  | none => nfaA

/-- The loop of `NFA::concat` that marks each remapped final of `second`
final and re-copies its action (nfa.rs 232–237). -/
def concatTakeFinals (acc : NFA) (secondMap : List (Nat × Nat))
    (second : NFA) : NFA :=
  (ascList second.final_states).foldl (takeFinalsStep secondMap second) acc

/-- `NFA::concat(first, second)`: copy both operands (actions included) into a
fresh NFA, keep `first`'s start, add epsilon edges from each final of `first`
to `second`'s start, take `second`'s finals (re-copying their actions), and
union the alphabets. -/
def concat (first second : NFA) : NFA :=
  let p1 := importAll (defaultNFA, []) first
  let p2 := importAll (p1.1, []) second
  let firstMap := p1.2
  let secondMap := p2.2
  let nfa3 := { p2.1 with start_state := mapApply firstMap first.start_state }
  let nfa4 := copyTransitions nfa3 firstMap first
  let nfa5 := copyTransitions nfa4 secondMap second
  let nfa6 := concatLinkFinals nfa5 firstMap secondMap first second
  let nfa7 := concatTakeFinals nfa6 secondMap second
  { nfa7 with alphabet := nfa7.alphabet ∪ first.alphabet ∪ second.alphabet }

/-- The map component produced for `first` inside `NFA::concat`. -/
def concatFirstMap (first : NFA) : List (Nat × Nat) :=
  (importAll (defaultNFA, []) first).2

/-- The map component produced for `second` inside `NFA::concat`. -/
def concatSecondMap (first second : NFA) : List (Nat × Nat) :=
  (importAll ((importAll (defaultNFA, []) first).1, []) second).2

/-- `NFA::union(first, second)`: fresh start state with epsilon edges to both
copied starts; finals are the union of both copied final sets. -/
def union (first second : NFA) : NFA :=
  let q := defaultNFA.add_state
  let start := q.2
  let nfa0 := { q.1 with start_state := start }
  let p1 := importAll (nfa0, []) first
  let p2 := importAll (p1.1, []) second
  let firstMap := p1.2
  let secondMap := p2.2
  let nfa3 := (p2.1.add_transition start Sym.eps (mapApply firstMap first.start_state)).add_transition
      start Sym.eps (mapApply secondMap second.start_state)
  let nfa4 := copyTransitions nfa3 firstMap first
  let nfa5 := copyTransitions nfa4 secondMap second
  let nfa6 := (ascList first.final_states).foldl
    (fun nfa f => { nfa with final_states := insert (mapApply firstMap f) nfa.final_states })
    nfa5
  let nfa7 := (ascList second.final_states).foldl
    (fun nfa f => { nfa with final_states := insert (mapApply secondMap f) nfa.final_states })
    nfa6
  { nfa7 with alphabet := nfa7.alphabet ∪ first.alphabet ∪ second.alphabet }

/-- `NFA::kleene(inner)`. -/
def kleene (inner : NFA) : NFA :=
  let q := defaultNFA.add_state
  let start := q.2
  let nfa0 := { q.1 with start_state := start }
  let p := importNoAct (nfa0, []) inner
  let m := p.2
  let nfa1 := copyTransitions p.1 m inner
  let r := nfa1.add_state
  let endS := r.2
  let nfa2 := { r.1 with final_states := insert endS r.1.final_states }
  let nfa3 := (nfa2.add_transition start Sym.eps (mapApply m inner.start_state)).add_transition
      start Sym.eps endS
  let nfa4 := (ascList inner.final_states).foldl
    (fun nfa f =>
      (nfa.add_transition (mapApply m f) Sym.eps (mapApply m inner.start_state)).add_transition
        (mapApply m f) Sym.eps endS)
    nfa3
  { nfa4 with alphabet := nfa4.alphabet ∪ inner.alphabet }

/-- `NFA::plus(inner) = concat(inner, kleene(inner))`. -/
def plus (inner : NFA) : NFA :=
  concat inner (kleene inner)

/-- `NFA::optional(inner)`: note the fresh final is allocated before the
transitions of `inner` are copied. -/
def optional (inner : NFA) : NFA :=
  let q := defaultNFA.add_state
  let start := q.2
  let nfa0 := { q.1 with start_state := start }
  let p := importNoAct (nfa0, []) inner
  let m := p.2
  let r := p.1.add_state
  let endS := r.2
  let nfa1 := { r.1 with final_states := insert endS r.1.final_states }
  let nfa2 := copyTransitions nfa1 m inner
  let nfa3 := (nfa2.add_transition start Sym.eps endS).add_transition
      start Sym.eps (mapApply m inner.start_state)
  let nfa4 := (ascList inner.final_states).foldl
    (fun nfa f => nfa.add_transition (mapApply m f) Sym.eps endS)
    nfa3
  { nfa4 with alphabet := nfa4.alphabet ∪ inner.alphabet }

/-- `NFA::concat_multiples`. -/
def concat_multiples (nfas : List NFA) : NFA :=
  match nfas with
  | [] => empty
  | [x] => x
  | x :: rest => rest.foldl concat x

/-- `NFA::union_multiples`. -/
def union_multiples (nfas : List NFA) : NFA :=
  match nfas with
  | [] => empty
  | [x] => x
  | x :: rest => rest.foldl union x

/-- `NFA::bounded(inner, min, max)`. -/
def bounded (inner : NFA) (min : Nat) (max : Option Nat) : NFA :=
  if min = 0 ∧ max = none then kleene inner
  else
    let nfa := concat_multiples (List.replicate min inner)
    match max with
    | some maxv =>
      let optionalParts := List.replicate (maxv - min) (optional inner)
      if optionalParts = [] then nfa
      else concat_multiples [nfa, concat_multiples optionalParts]
    | none => concat nfa (kleene inner)

/-- The epsilon successors of one state: the set bound to `(state, Epsilon)`
in the transition map (empty when absent). -/
def epsSucc (nfa : NFA) (s : Nat) : Finset Nat :=
  (transLookup nfa.transitions (s, Sym.eps)).getD ∅

/-- Every state that appears as a target of some epsilon transition; used only
to bound the fuel of the worklist below. -/
def epsTargets (nfa : NFA) : Finset Nat :=
  nfa.transitions.foldl
    (fun acc e => match e.1.2 with | Sym.eps => acc ∪ e.2 | _ => acc) ∅

/-- The worklist loop of `NFA::epsilon_closure`: pop a state, add its epsilon
successors to the closure, and push the ones that are new.  The Rust loop pops
from the end of a `Vec`; the traversal order differs here but the computed set
does not depend on it. -/
def closureGo (tr : Nat → Finset Nat) : Nat → List Nat → Finset Nat → Finset Nat
  | 0, _, closure => closure
  | _ + 1, [], closure => closure
  | fuel + 1, s :: stack, closure =>
    let ts := tr s
    let newStates := ascList (ts \ closure)
    closureGo tr fuel (newStates ++ stack) (closure ∪ ts)

/-- `NFA::epsilon_closure(states)`: seed the closure and the stack with
`states` and run the worklist.  The fuel strictly exceeds the number of pops
the Rust loop performs (each pop either removes a stack entry or moves fresh
states, all drawn from `epsTargets`, into the closure). -/
def epsilon_closure (nfa : NFA) (states : Finset Nat) : Finset Nat :=
  closureGo (epsSucc nfa) (states.card + (epsTargets nfa).card + 1)
    (ascList states) states

end NFA

/-- The move step that the subset construction (`impl From<NFA> for DFA`,
inner loop) performs for one input char `c`: for every state of `S`, the
targets reached on `Char c` together with the targets of every `CharClass`
transition whose class contains `c`. -/
def nfaMove (nfa : NFA) (S : Finset Nat) (c : Nat) : Finset Nat :=
  (ascList S).foldl
    (fun acc s =>
      let direct := (transLookup nfa.transitions (s, Sym.ch c)).getD ∅
      let fromCls := nfa.transitions.foldl
        (fun acc2 e =>
          match e.1.2 with
          | Sym.cls set => if e.1.1 = s ∧ c ∈ set then acc2 ∪ e.2 else acc2
          | _ => acc2) ∅
      acc ∪ direct ∪ fromCls) ∅

/-- One subset-simulation step of the NFA: move on `c`, then close. -/
def nfaStep (nfa : NFA) (S : Finset Nat) (c : Nat) : Finset Nat :=
  nfa.epsilon_closure (nfaMove nfa S c)

/-- Mathematical acceptance of a word by the NFA (the spec-level notion "the
NFA accepts `w`"): simulate the subsets from the closed start state and test
whether a final state is reached.  The source has no such function; this is
the standard meaning used by the specification. -/
def nfaAccepts (nfa : NFA) (w : List Nat) : Bool :=
  decide (((w.foldl (nfaStep nfa) (nfa.epsilon_closure {nfa.start_state})) ∩
    nfa.final_states).Nonempty)

/-- `DFA` from `dfa.rs`. -/
structure DFA where
  states : Finset Nat
  alphabet : Finset Nat
  transitions : List ((Nat × Sym) × Nat)
  start_state : Nat
  final_states : Finset Nat
  actions : List (Nat × String)
deriving DecidableEq

/-- `BTreeMap<(StateID, TransitionSymbol), StateID>` lookup. -/
def dtransLookup (l : List ((Nat × Sym) × Nat)) (k : Nat × Sym) : Option Nat :=
  (l.find? (fun e => decide (e.1 = k))).map (fun e => e.2)

/-- `BTreeMap<(StateID, TransitionSymbol), StateID>` insert. -/
def dtransInsert (l : List ((Nat × Sym) × Nat)) (k : Nat × Sym) (v : Nat) :
    List ((Nat × Sym) × Nat) :=
  (k, v) :: l

namespace DFA

/-- `Default for DFA`. -/
def defaultDFA : DFA :=
  { states := ∅, alphabet := ∅, transitions := [], start_state := 0,
    final_states := ∅, actions := [] }

/-- The `highest_priority_state` computation of `impl From<NFA> for DFA`
(dfa.rs lines 109–118): scan the subset in ascending order and keep the
smallest member that is an NFA final state. -/
def pickFinal (final_states subset : Finset Nat) : Option Nat :=
  (ascList subset).foldl
    (fun best s =>
      if s ∈ final_states then
        match best with
        | none => some s
        | some b => if s < b then some s else some b
      else best) none

/-- The body of the `for &symbol in &dfa.alphabet` loop of
`impl From<NFA> for DFA`, for one symbol `c` and the current subset `S`
(whose DFA id is `current`).  The accumulator carries the DFA under
construction, the subset-to-id map, the fresh-id counter and the worklist
queue.  New subsets are registered; a new subset becomes final and receives
an action only when its smallest final NFA state has an action. -/
def fromStep (nfa : NFA) (S : Finset Nat) (current : Nat)
    (acc : DFA × List (Finset Nat × Nat) × Nat × List (Finset Nat)) (c : Nat) :
    DFA × List (Finset Nat × Nat) × Nat × List (Finset Nat) :=
  let dfa := acc.1
  let stateMap := acc.2.1
  let counter := acc.2.2.1
  let queue := acc.2.2.2
  let moved := nfa.epsilon_closure (nfaMove nfa S c)
  if moved.card = 0 then acc
  else
    match (stateMap.find? (fun e => setEq e.1 moved)).map (fun e => e.2) with
    | some id =>
      ({ dfa with transitions := dtransInsert dfa.transitions (current, Sym.ch c) id },
       stateMap, counter, queue)
    | none =>
      let newId := counter
      let stateMap2 := (moved, newId) :: stateMap
      let dfaA := { dfa with states := insert newId dfa.states }
      let dfaB :=
        match pickFinal nfa.final_states moved with
        | some st =>
          match actLookup nfa.actions st with
          | some a =>
            { dfaA with final_states := insert newId dfaA.final_states,
                        actions := actInsert dfaA.actions newId a }
          | none => dfaA
        | none => dfaA
      let dfaC := { dfaB with transitions := dtransInsert dfaB.transitions (current, Sym.ch c) newId }
      (dfaC, stateMap2, counter + 1, queue ++ [moved])

/-- The worklist loop of `impl From<NFA> for DFA`: pop a subset from the FIFO
queue and process every alphabet symbol for it.  The fuel bounds the number of
pops; each distinct subset is enqueued at most once, so `2 ^ (card + 1) + 1`
strictly exceeds what the Rust loop can perform. -/
def fromLoop (nfa : NFA) : Nat → List (Finset Nat) → List (Finset Nat × Nat) →
    Nat → DFA → DFA
  | 0, _, _, _, dfa => dfa
  | _ + 1, [], _, _, dfa => dfa
  | fuel + 1, S :: queue, stateMap, counter, dfa =>
    let current := ((stateMap.find? (fun e => setEq e.1 S)).map (fun e => e.2)).getD 0
    let r := (ascList dfa.alphabet).foldl (fromStep nfa S current)
      (dfa, stateMap, counter, queue)
    fromLoop nfa fuel r.2.2.2 r.2.1 r.2.2.1 r.1

/-- `impl From<NFA> for DFA` (subset construction): close the start state,
register it as DFA state 0, and run the worklist. -/
def fromNFA (nfa : NFA) : DFA :=
  let dfa0 := { defaultDFA with alphabet := nfa.alphabet }
  let start_set := nfa.epsilon_closure {nfa.start_state}
  let dfa1 := { dfa0 with states := insert 0 dfa0.states, start_state := 0 }
  fromLoop nfa (2 ^ (nfa.states.card + 1) + 1) [start_set] [(start_set, 0)] 1 dfa1

/-- The char-consuming loop of `DFA::scan_next_token`: stop at a char outside
the alphabet or without a transition; after each step record the state and the
consumed length whenever the state is final.  `i` is the index of the char
about to be consumed. -/
def scanGo (dfa : DFA) : List Nat → Nat → Nat → Option Nat → Nat →
    Option Nat × Nat
  | [], _, _, last, lastLen => (last, lastLen)
  | c :: rest, i, cur, last, lastLen =>
    if c ∈ dfa.alphabet then
      match dtransLookup dfa.transitions (cur, Sym.ch c) with
      | some nxt =>
        if nxt ∈ dfa.final_states then scanGo dfa rest (i + 1) nxt (some nxt) (i + 1)
        else scanGo dfa rest (i + 1) nxt last lastLen
      | none => (last, lastLen)
    else (last, lastLen)

/-- `DFA::scan_next_token`: on success the token is the recorded number of
chars, the action is the accepting state's action (or `UNKNOWN`), and the rest
is the remainder; otherwise the token and action are empty and the whole input
is returned. -/
def scan_next_token (dfa : DFA) (input : List Nat) : List Nat × String × List Nat :=
  match scanGo dfa input 0 dfa.start_state none 0 with
  | (some st, len) =>
    (input.take len, (actLookup dfa.actions st).getD "UNKNOWN", input.drop len)
  | (none, _) => ([], "", input)

/-- `DFA::simulate`: repeatedly scan a token from the remaining input, stop on
an empty token; the loop terminates because a non-empty token strictly
shortens the remainder. -/
def simulate (dfa : DFA) (input : List Nat) : List (List Nat × String) :=
  if input = [] then []
  else
    match h : scan_next_token dfa input with
    | (tok, act, rest) =>
      if htok : tok = [] then []
      else (tok, act) :: simulate dfa rest
termination_by input.length
decreasing_by
  unfold scan_next_token at h
  rcases hs : scanGo dfa input 0 dfa.start_state none 0 with ⟨st, len⟩
  rw [hs] at h
  cases st with
  | none =>
    cases h
    exact absurd rfl htok
  | some q =>
    cases h
    have hlen : 1 ≤ len := by
      by_contra hc
      push_neg at hc
      interval_cases len
      simp at htok
    have hinp : input ≠ [] := by
      intro he
      exact htok (by simp [he])
    have hne : input.length ≠ 0 := by simpa using hinp
    simp only [List.length_drop]
    omega

end DFA

/-- Run the DFA transition function from state `s` over the word `w`
(the mathematical acceptance run; the source exposes it only through
`scan_next_token`). -/
def DFA.run (dfa : DFA) (s : Nat) : List Nat → Option Nat
  | [] => some s
  | c :: w =>
    match dtransLookup dfa.transitions (s, Sym.ch c) with
    | some t => DFA.run dfa t w
    | none => none

/-- Mathematical acceptance of a word by the DFA (the spec-level notion "the
DFA accepts `w`"): the run from the start state is defined throughout and
ends in a final state. -/
def DFA.acceptsWord (dfa : DFA) (w : List Nat) : Bool :=
  match DFA.run dfa dfa.start_state w with
  | some q => decide (q ∈ dfa.final_states)
  | none => false

/-- Whether some prefix length `n` of `input` is accepted by the DFA. -/
def DFA.acceptsTake (dfa : DFA) (input : List Nat) (n : Nat) : Bool :=
  DFA.acceptsWord dfa (input.take n)

/-- Well-formedness of a DFA as produced by the subset construction: the char
of every transition key belongs to the alphabet.  (`DFA::scan_next_token`
stops at a char outside the alphabet before even consulting the transition
map, so this is the hypothesis under which that early stop is harmless.) -/
def DFA.wfAlphabet (dfa : DFA) : Bool :=
  dfa.transitions.all
    (fun e => match e.1.2 with
      | Sym.ch c => decide (c ∈ dfa.alphabet)
      | _ => true)

/-- One epsilon edge, as a relation: `b` is an epsilon successor of `a`. -/
def epsEdge (nfa : NFA) (a b : Nat) : Prop :=
  b ∈ NFA.epsSucc nfa a

/-- `Option<usize>` (spelled out so that the `Regex.Option` constructor below
cannot shadow it). -/
abbrev MaybeNat := Option Nat

/-- The regex AST from `regex.rs` (`enum Regex`). -/
inductive Regex where
  | Empty : Regex
  | Char : Nat → Regex
  | CharClass : Finset Nat → Regex
  | NegatedCharClass : Finset Nat → Regex
  | Dot : Regex
  | StartAnchor : Regex
  | EndAnchor : Regex
  | Union : Regex → Regex → Regex
  | Concat : Regex → Regex → Regex
  | Option : Regex → Regex
  | Plus : Regex → Regex
  | Kleene : Regex → Regex
  | Bounded : Regex → Nat → MaybeNat → Regex
deriving DecidableEq

/-- `impl From<Regex> for NFA` (nfa.rs lines 61–80).  The catch-all arm of the
Rust `match` — reached exactly by `StartAnchor` and `EndAnchor` — executes
`panic!("Not implemented")`; the panic is modelled as `none`. -/
def NFA.fromRegex : Regex → Option NFA
  | Regex.Empty => some NFA.empty
  | Regex.Char c => some (NFA.char c)
  | Regex.CharClass s => some (NFA.char_class s)
  | Regex.NegatedCharClass s => some (NFA.negated_char_class s)
  | Regex.Dot => some NFA.dot
  | Regex.Concat l r =>
    (NFA.fromRegex l).bind fun a => (NFA.fromRegex r).map fun b => NFA.concat a b
  | Regex.Union l r =>
    (NFA.fromRegex l).bind fun a => (NFA.fromRegex r).map fun b => NFA.union a b
  | Regex.Kleene inner => (NFA.fromRegex inner).map NFA.kleene
  | Regex.Option inner => (NFA.fromRegex inner).map NFA.optional
  | Regex.Plus inner => (NFA.fromRegex inner).map NFA.plus
  | Regex.Bounded inner mn mx => (NFA.fromRegex inner).map fun a => NFA.bounded a mn mx
  | Regex.StartAnchor => none
  | Regex.EndAnchor => none

/-- An AST that contains no `StartAnchor` / `EndAnchor` node. -/
def Regex.anchorFree : Regex → Bool
  | Regex.Empty => true
  | Regex.Char _ => true
  | Regex.CharClass _ => true
  | Regex.NegatedCharClass _ => true
  | Regex.Dot => true
  | Regex.StartAnchor => false
  | Regex.EndAnchor => false
  | Regex.Union l r => l.anchorFree && r.anchorFree
  | Regex.Concat l r => l.anchorFree && r.anchorFree
  | Regex.Option inner => inner.anchorFree
  | Regex.Plus inner => inner.anchorFree
  | Regex.Kleene inner => inner.anchorFree
  | Regex.Bounded inner _ _ => inner.anchorFree

/-! The recursive-descent parser of `regex.rs` (`RegexParser`).  The parser
state is the char vector (as ASCII codes) and the position.  The mutually
recursive productions carry a fuel argument because the recursion
`union → concat → operator → base → group → union` has no structural measure;
`Regex.new` passes fuel that comfortably exceeds the recursion depth reachable
on its input.  Error strings keep the wording of the Rust messages minus the
interpolated position/snippet details. -/

/-- `RegexParser { chars, pos }`. -/
structure PSt where
  chars : List Nat
  pos : Nat
deriving DecidableEq

namespace PSt

/-- `RegexParser::current_char`. -/
def currentChar (p : PSt) : Option Nat :=
  p.chars[p.pos]?

/-- `RegexParser::advance`. -/
def advance (p : PSt) : PSt :=
  { p with pos := p.pos + 1 }

/-- `RegexParser::consume_char`. -/
def consumeChar (p : PSt) : Option Nat × PSt :=
  match p.currentChar with
  | some c => (some c, p.advance)
  | none => (none, p)

/-- `RegexParser::peek`. -/
def peek (p : PSt) (off : Nat) : Option Nat :=
  p.chars[p.pos + off]?

/-- `RegexParser::at_end`. -/
def atEnd (p : PSt) : Bool :=
  decide (p.chars.length ≤ p.pos)

/-- `RegexParser::match_string`: succeed (and advance) iff the next chars are
exactly `s`. -/
def matchStr (p : PSt) (s : List Nat) : Bool × PSt :=
  if (p.chars.drop p.pos).take s.length = s then
    (true, { p with pos := p.pos + s.length })
  else (false, p)

/-- `RegexParser::check_non_capturing_group`. -/
def checkNonCapturing (p : PSt) : Bool × PSt :=
  if p.currentChar = some 63 ∧ p.peek 1 = some 58 then
    (true, { p with pos := p.pos + 2 })
  else (false, p)

end PSt

/-- The chars `lo..=hi`. -/
def rangeSet (lo hi : Nat) : Finset Nat :=
  (Finset.range (hi + 1)).filter (fun c => lo ≤ c)

/-- ASCII lowercase letters. -/
def lowerSet : Finset Nat := rangeSet 97 122
/-- ASCII uppercase letters. -/
def upperSet : Finset Nat := rangeSet 65 90
/-- ASCII letters. -/
def alphaSet : Finset Nat := lowerSet ∪ upperSet
/-- ASCII digits. -/
def digitSet : Finset Nat := rangeSet 48 57
/-- ASCII letters and digits. -/
def alnumSet : Finset Nat := alphaSet ∪ digitSet
/-- The whitespace chars of the source (space, tab, newline, carriage return,
vertical tab, form feed). -/
def spaceSet : Finset Nat := {32, 9, 10, 13, 11, 12}
/-- The punctuation chars of the source string (all printable ASCII that is
neither alphanumeric nor space). -/
def punctSet : Finset Nat :=
  rangeSet 33 47 ∪ rangeSet 58 64 ∪ rangeSet 91 96 ∪ rangeSet 123 126
/-- `0x21..=0x7E`. -/
def graphSet : Finset Nat := rangeSet 33 126
/-- `0x20..=0x7E`. -/
def printSet : Finset Nat := rangeSet 32 126
/-- Hex digits. -/
def xdigitSet : Finset Nat := digitSet ∪ rangeSet 97 102 ∪ rangeSet 65 70
/-- Space and tab. -/
def blankSet : Finset Nat := {32, 9}
/-- `0x00..=0x1F` and `0x7F`. -/
def cntrlSet : Finset Nat := rangeSet 0 31 ∪ {127}

/-- `RegexParser::get_named_class` keyed by the decoded class name. -/
def getNamedClass (name : String) : Option (Finset Nat) :=
  match name with
  | "alpha" => some alphaSet
  | "digit" => some digitSet
  | "alnum" => some alnumSet
  | "space" => some spaceSet
  | "punct" => some punctSet
  | "graph" => some graphSet
  | "print" => some printSet
  | "xdigit" => some xdigitSet
  | "blank" => some blankSet
  | "cntrl" => some cntrlSet
  | "lower" => some lowerSet
  | "upper" => some upperSet
  | _ => none

/-- `RegexParser::add_char_range`. -/
def addCharRange (start endc : Nat) (chars : Finset Nat) :
    Except String (Finset Nat) :=
  if start > endc then Except.error "Invalid character range"
  else Except.ok (chars ∪ rangeSet start endc)

/-- The digit-collecting loop of `RegexParser::parse_number`. -/
def digitsGo : Nat → PSt → List Nat → List Nat × PSt
  | 0, p, acc => (acc, p)
  | fuel + 1, p, acc =>
    match p.currentChar with
    | some c => if 48 ≤ c ∧ c ≤ 57 then digitsGo fuel p.advance (acc ++ [c]) else (acc, p)
    | none => (acc, p)

/-- `RegexParser::parse_number`: collect digits; `"".parse()` fails, so an
empty digit string is the error case. -/
def parse_number (p : PSt) : Except String (Nat × PSt) :=
  let r := digitsGo (p.chars.length + 1) p []
  if r.1 = [] then Except.error "Invalid number"
  else Except.ok (r.1.foldl (fun n d => n * 10 + (d - 48)) 0, r.2)

/-- The name-collecting loop shared by `parse_posix_class` and
`parse_named_class` (`while current != colon`). -/
def classNameGo : Nat → PSt → List Nat → List Nat × PSt
  | 0, p, acc => (acc, p)
  | fuel + 1, p, acc =>
    match p.currentChar with
    | some c => if c = 58 then (acc, p) else classNameGo fuel p.advance (acc ++ [c])
    | none => (acc, p)

/-- Decode a collected class name to a `String`. -/
def decodeName (cs : List Nat) : String :=
  String.mk (cs.map Char.ofNat)

/-- `RegexParser::parse_named_class` (a `[:name:]` inside a class body):
consume `[`, expect `:`, read the name, expect `:]`, and expand. -/
def parse_named_class (p : PSt) : Except String (Finset Nat × PSt) :=
  let p1 := p.advance
  let m1 := p1.matchStr [58]
  if !m1.1 then Except.error "Expected colon after bracket in named class"
  else
    let r := classNameGo (p.chars.length + 1) m1.2 []
    let m2 := r.2.matchStr [58, 93]
    if !m2.1 then Except.error "Expected colon-bracket at end of named class"
    else
      match getNamedClass (decodeName r.1) with
      | some chars => Except.ok (chars, m2.2)
      | none => Except.error "Unknown named character class"

/-- `RegexParser::parse_posix_class` (a class whose whole body is
`[:name:]`): as `parse_named_class` but also consuming the closing `]` of the
surrounding class. -/
def parse_posix_class (p : PSt) (negated : Bool) :
    Except String (Regex × PSt) :=
  let p1 := p.advance
  let m1 := p1.matchStr [58]
  if !m1.1 then Except.error "Expected colon after bracket in POSIX class"
  else
    let r := classNameGo (p.chars.length + 1) m1.2 []
    let m2 := r.2.matchStr [58, 93]
    if !m2.1 then Except.error "Expected colon-bracket at end of POSIX class"
    else if m2.2.currentChar ≠ some 93 then
      Except.error "Expected bracket to close character class"
    else
      match getNamedClass (decodeName r.1) with
      | some chars =>
        Except.ok
          (if negated then Regex.NegatedCharClass chars else Regex.CharClass chars,
           m2.2.advance)
      | none => Except.error "Unknown POSIX character class"

/-- `RegexParser::parse_escape_in_class`: one escaped char (or shorthand
class) inside `[...]`, added to `chars`. -/
def parse_escape_in_class (p : PSt) (chars : Finset Nat) :
    Except String (Finset Nat × PSt) :=
  match p.currentChar with
  | some c =>
    if c = 100 then Except.ok (chars ∪ digitSet, p.advance)
    else if c = 119 then Except.ok (chars ∪ alnumSet ∪ {95}, p.advance)
    else if c = 115 then Except.ok (chars ∪ spaceSet, p.advance)
    else if c = 97 then Except.ok (insert 7 chars, p.advance)
    else if c = 98 then Except.ok (insert 8 chars, p.advance)
    else if c = 102 then Except.ok (insert 12 chars, p.advance)
    else if c = 110 then Except.ok (insert 10 chars, p.advance)
    else if c = 114 then Except.ok (insert 13 chars, p.advance)
    else if c = 116 then Except.ok (insert 9 chars, p.advance)
    else if c = 118 then Except.ok (insert 11 chars, p.advance)
    else Except.ok (insert c chars, p.advance)
  | none => Except.error "Escape at end of pattern"

/-- The body loop of `RegexParser::parse_char_class` (everything after the
optional `^`, up to the closing `]`). -/
def classBodyGo : Nat → PSt → Finset Nat → Except String (Finset Nat × PSt)
  | 0, _, _ => Except.error "out of fuel"
  | fuel + 1, p, chars =>
    match p.currentChar with
    | none => Except.ok (chars, p)
    | some c =>
      if c = 93 then Except.ok (chars, p)
      else if c = 91 ∧ p.peek 1 = some 58 then
        match parse_named_class p with
        | Except.ok r => classBodyGo fuel r.2 (chars ∪ r.1)
        | Except.error e => Except.error e
      else if c = 92 then
        match parse_escape_in_class p.advance chars with
        | Except.ok r => classBodyGo fuel r.2 r.1
        | Except.error e => Except.error e
      else
        match p.peek 1 with
        | some 45 =>
          match p.peek 2 with
          | some endc =>
            if endc ≠ 93 then
              let q := (p.advance.advance).consumeChar
              match addCharRange c (q.1.getD 0) chars with
              | Except.ok chars2 => classBodyGo fuel q.2 chars2
              | Except.error e => Except.error e
            else classBodyGo fuel p.advance (insert c chars)
          | none => classBodyGo fuel p.advance (insert c chars)
        | _ => classBodyGo fuel p.advance (insert c chars)

/-- `RegexParser::parse_char_class`. -/
def parse_char_class (p : PSt) : Except String (Regex × PSt) :=
  let p1 := p.advance
  let neg := p1.currentChar = some 94
  let p2 := if neg then p1.advance else p1
  if p2.currentChar = some 91 ∧ p2.peek 1 = some 58 then
    parse_posix_class p2 neg
  else
    match classBodyGo (p.chars.length + 2) p2 ∅ with
    | Except.error e => Except.error e
    | Except.ok r =>
      if r.2.currentChar ≠ some 93 then
        Except.error "Unclosed character class"
      else
        Except.ok
          (if neg then Regex.NegatedCharClass r.1 else Regex.CharClass r.1,
           r.2.advance)

/-- The body loop of `RegexParser::parse_literal` (a `"..."` quoted literal):
every char is literal, backslash recognizes the C escape set. -/
def literalGo : Nat → PSt → Regex → Except String (Regex × PSt)
  | 0, _, _ => Except.error "out of fuel"
  | fuel + 1, p, acc =>
    match p.currentChar with
    | none => Except.error "Unterminated string literal"
    | some c =>
      if c = 34 then Except.ok (acc, p.advance)
      else if c = 92 then
        match p.advance.currentChar with
        | some esc =>
          let actual :=
            if esc = 110 then 10
            else if esc = 116 then 9
            else if esc = 114 then 13
            else if esc = 102 then 12
            else if esc = 98 then 8
            else if esc = 97 then 7
            else if esc = 118 then 11
            else esc
          let acc2 :=
            match acc with
            | Regex.Empty => Regex.Char actual
            | a => Regex.Concat a (Regex.Char actual)
          literalGo fuel p.advance.advance acc2
        | none => Except.error "Unexpected end of pattern after escape character"
      else
        let acc2 :=
          match acc with
          | Regex.Empty => Regex.Char c
          | a => Regex.Concat a (Regex.Char c)
        literalGo fuel p.advance acc2

/-- `RegexParser::parse_literal`. -/
def parse_literal (p : PSt) : Except String (Regex × PSt) :=
  literalGo (p.chars.length + 2) p.advance Regex.Empty

/-- One optional octal-digit step of the octal-escape loop
(`for _ in 0..2`). -/
def octalStep (r : List Nat × PSt) : List Nat × PSt :=
  match r.2.currentChar with
  | some d => if 48 ≤ d ∧ d ≤ 55 then (r.1 ++ [d], r.2.advance) else r
  | none => r

/-- One mandatory hex-digit step of the `\xHH` escape. -/
def hexStep (r : Except String (List Nat × PSt)) : Except String (List Nat × PSt) :=
  match r with
  | Except.error e => Except.error e
  | Except.ok q =>
    match q.2.currentChar with
    | some d =>
      if (48 ≤ d ∧ d ≤ 57) ∨ (97 ≤ d ∧ d ≤ 102) ∨ (65 ≤ d ∧ d ≤ 70) then
        Except.ok (q.1 ++ [d], q.2.advance)
      else Except.error "Expected hex digit in x escape"
    | none => Except.error "Incomplete hex escape"

/-- Numeric value of one hex digit. -/
def hexVal (d : Nat) : Nat :=
  if 48 ≤ d ∧ d ≤ 57 then d - 48
  else if 97 ≤ d ∧ d ≤ 102 then d - 87
  else d - 55

/-- `RegexParser::parse_escape` (an escape outside a class). -/
def parse_escape (p : PSt) : Except String (Regex × PSt) :=
  let p1 := p.advance
  match p1.currentChar with
  | none => Except.error "Escape at end of pattern"
  | some c =>
    if c = 100 then Except.ok (Regex.CharClass digitSet, p1.advance)
    else if c = 68 then
      Except.ok (Regex.NegatedCharClass
        ((Finset.range 128).filter (fun x => x ∉ digitSet)), p1.advance)
    else if c = 119 then
      Except.ok (Regex.CharClass (alnumSet ∪ {95}), p1.advance)
    else if c = 87 then
      Except.ok (Regex.NegatedCharClass
        ((Finset.range 128).filter (fun x => x ∉ alnumSet ∧ x ≠ 95)), p1.advance)
    else if c = 115 then Except.ok (Regex.CharClass spaceSet, p1.advance)
    else if c = 83 then
      Except.ok (Regex.NegatedCharClass
        ((Finset.range 128).filter (fun x => x ∉ spaceSet)), p1.advance)
    else if c = 97 then Except.ok (Regex.Char 7, p1.advance)
    else if c = 98 then Except.ok (Regex.Char 8, p1.advance)
    else if c = 102 then Except.ok (Regex.Char 12, p1.advance)
    else if c = 110 then Except.ok (Regex.Char 10, p1.advance)
    else if c = 114 then Except.ok (Regex.Char 13, p1.advance)
    else if c = 116 then Except.ok (Regex.Char 9, p1.advance)
    else if c = 118 then Except.ok (Regex.Char 11, p1.advance)
    else if 48 ≤ c ∧ c ≤ 55 then
      let r := octalStep (octalStep ([c], p1.advance))
      let value := r.1.foldl (fun n d => n * 8 + (d - 48)) 0
      Except.ok (Regex.Char value, r.2)
    else if c = 120 then
      match hexStep (hexStep (Except.ok ([], p1.advance))) with
      | Except.ok r =>
        Except.ok (Regex.Char (r.1.foldl (fun n d => n * 16 + hexVal d) 0), r.2)
      | Except.error e => Except.error e
    else Except.ok (Regex.Char c, p1.advance)

mutual

/-- `RegexParser::parse_union`: a concat followed by the `|` loop. -/
def parse_union : Nat → PSt → Except String (Regex × PSt)
  | 0, _ => Except.error "out of fuel"
  | fuel + 1, p =>
    match parse_concat fuel p with
    | Except.ok r => unionGo fuel r.2 r.1
    | Except.error e => Except.error e

/-- The `while current == pipe` loop of `parse_union`. -/
def unionGo : Nat → PSt → Regex → Except String (Regex × PSt)
  | 0, _, _ => Except.error "out of fuel"
  | fuel + 1, p, left =>
    if p.currentChar = some 124 then
      match parse_concat fuel p.advance with
      | Except.ok r => unionGo fuel r.2 (Regex.Union left r.1)
      | Except.error e => Except.error e
    else Except.ok (left, p)

/-- `RegexParser::parse_concat`: collect factors and left-fold `Concat`. -/
def parse_concat : Nat → PSt → Except String (Regex × PSt)
  | 0, _ => Except.error "out of fuel"
  | fuel + 1, p =>
    match concatGo fuel p [] with
    | Except.ok r =>
      match r.1 with
      | [] => Except.ok (Regex.Empty, r.2)
      | f :: rest => Except.ok (rest.foldl (fun e g => Regex.Concat e g) f, r.2)
    | Except.error e => Except.error e

/-- The factor-collecting loop of `parse_concat` (stop at `)`, `|`, `$` or
end of input). -/
def concatGo : Nat → PSt → List Regex → Except String (List Regex × PSt)
  | 0, _, _ => Except.error "out of fuel"
  | fuel + 1, p, factors =>
    match p.currentChar with
    | none => Except.ok (factors, p)
    | some c =>
      if c = 41 ∨ c = 124 ∨ c = 36 then Except.ok (factors, p)
      else
        match parse_operator fuel p with
        | Except.ok r => concatGo fuel r.2 (factors ++ [r.1])
        | Except.error e => Except.error e

/-- `RegexParser::parse_operator`: a base then an optional postfix
`*`, `+`, `?` or `{...}`. -/
def parse_operator : Nat → PSt → Except String (Regex × PSt)
  | 0, _ => Except.error "out of fuel"
  | fuel + 1, p =>
    match parse_base fuel p with
    | Except.error e => Except.error e
    | Except.ok r =>
      match r.2.currentChar with
      | some 42 => Except.ok (Regex.Kleene r.1, r.2.advance)
      | some 43 => Except.ok (Regex.Plus r.1, r.2.advance)
      | some 63 => Except.ok (Regex.Option r.1, r.2.advance)
      | some 123 => parse_bounded fuel r.2 r.1
      | some _ => Except.ok r
      | none => Except.ok r

/-- `RegexParser::parse_bounded`: `{m}`, `{m,}` or `{m,n}`.  No `m ≤ n`
validation is performed. -/
def parse_bounded : Nat → PSt → Regex → Except String (Regex × PSt)
  | 0, _, _ => Except.error "out of fuel"
  | _ + 1, p, expr =>
    if p.currentChar ≠ some 123 then Except.ok (expr, p)
    else
      match parse_number p.advance with
      | Except.error e => Except.error e
      | Except.ok r =>
        let min := r.1
        let afterComma :=
          if r.2.currentChar = some 44 then
            let p3 := r.2.advance
            if p3.currentChar ≠ some 125 then
              match parse_number p3 with
              | Except.error e => Except.error e
              | Except.ok q => Except.ok (some q.1, q.2)
            else Except.ok (none, p3)
          else Except.ok (some min, r.2)
        match afterComma with
        | Except.error e => Except.error e
        | Except.ok q =>
          if q.2.currentChar ≠ some 125 then
            Except.error "Expected closing brace"
          else Except.ok (Regex.Bounded expr min q.1, q.2.advance)

/-- `RegexParser::parse_base`: group, class, dot, escape, quoted literal, or a
single char (rejecting a stray `$` / `^`). -/
def parse_base : Nat → PSt → Except String (Regex × PSt)
  | 0, _ => Except.error "out of fuel"
  | fuel + 1, p =>
    match p.currentChar with
    | some 40 => parse_group fuel p
    | some 91 => parse_char_class p
    | some 46 => Except.ok (Regex.Dot, p.advance)
    | some 92 => parse_escape p
    | some 34 => parse_literal p
    | some c =>
      if c = 36 ∨ c = 94 then Except.error "Unexpected anchor in middle of pattern"
      else Except.ok (Regex.Char c, p.advance)
    | none => Except.error "Unexpected end of pattern"

/-- `RegexParser::parse_group`. -/
def parse_group : Nat → PSt → Except String (Regex × PSt)
  | 0, _ => Except.error "out of fuel"
  | fuel + 1, p =>
    let p1 := (p.advance.checkNonCapturing).2
    match parse_union fuel p1 with
    | Except.error e => Except.error e
    | Except.ok r =>
      if r.2.currentChar ≠ some 41 then Except.error "Unmatched parenthesis"
      else Except.ok (r.1, r.2.advance)

end

/-- `RegexParser::parse` (the top level): optional leading `^`, a union,
optional trailing `$`, then the must-be-at-end check. -/
def parse_top (fuel : Nat) (p : PSt) : Except String Regex :=
  if p.atEnd then Except.ok Regex.Empty
  else
    let anchored := p.currentChar = some 94
    let p1 := if anchored then p.advance else p
    match parse_union fuel p1 with
    | Except.error e => Except.error e
    | Except.ok r =>
      let withEnd :=
        if r.2.currentChar = some 36 then
          (Regex.Concat r.1 Regex.EndAnchor, r.2.advance)
        else r
      let withStart :=
        if anchored then
          (Regex.Concat Regex.StartAnchor withEnd.1, withEnd.2)
        else withEnd
      if !withStart.2.atEnd then Except.error "Unexpected char after regex end"
      else Except.ok withStart.1

/-- `Regex::new` on the char codes of the pattern. -/
def Regex.new (cs : List Nat) : Except String Regex :=
  parse_top (8 * cs.length + 16) ⟨cs, 0⟩

/-! The `.l` file parser of `file.rs` (`LexFile::new`).  Strings stay Lean
`String`s; the few Rust string helpers (`trim`, `find`, `split`,
`starts_with`, `contains`, `replace`) are given kernel-friendly definitions on
the underlying char lists.  Error strings keep the Rust wording minus the
interpolated file/line context. -/

/-- `ref` occurs at the head of `hay`. -/
def subAt : List Char → List Char → Bool
  | [], _ => true
  | _ :: _, [] => false
  | r :: rs, h :: hs => r = h && subAt rs hs

/-- `ref` occurs somewhere in `hay`. -/
def subAnywhere (ref : List Char) : List Char → Bool
  | [] => decide (ref = [])
  | h :: hs => subAt ref (h :: hs) || subAnywhere ref hs

/-- `str::contains` for a literal search string. -/
def strContains (hay ref : String) : Bool :=
  subAnywhere ref.data hay.data

/-- `str::starts_with`. -/
def strStarts (s pre : String) : Bool :=
  subAt pre.data s.data

/-- `str::trim` (both ends, whitespace). -/
def strTrim (s : String) : String :=
  String.mk (((s.data.dropWhile Char.isWhitespace).reverse.dropWhile
    Char.isWhitespace).reverse)

/-- `&line[..pos]`. -/
def strTake (s : String) (n : Nat) : String :=
  String.mk (s.data.take n)

/-- `&line[pos..]`. -/
def strDrop (s : String) (n : Nat) : String :=
  String.mk (s.data.drop n)

/-- `content.split(newline)`, keeping empty segments like the Rust splitter. -/
def splitLinesGo : List Char → List Char → List String
  | [], cur => [String.mk cur.reverse]
  | c :: rest, cur =>
    if c = Char.ofNat 10 then String.mk cur.reverse :: splitLinesGo rest []
    else splitLinesGo rest (c :: cur)

/-- All lines of the file content. -/
def splitLines (s : String) : List String :=
  splitLinesGo s.data []

/-- `BTreeMap<String, String>` insert, keeping the bindings sorted by key so
that iteration order matches the Rust map. -/
def defInsert : List (String × String) → String → String → List (String × String)
  | [], k, v => [(k, v)]
  | e :: rest, k, v =>
    if k = e.1 then (k, v) :: rest
    else if k < e.1 then (k, v) :: e :: rest
    else e :: defInsert rest k v

/-- One pass of the `expand_macros` loop: for each definition (in map order)
replace every occurrence of its brace-wrapped name; report whether anything
changed. -/
def expandPass (defs : List (String × String)) (result : String) :
    String × Bool :=
  defs.foldl
    (fun acc d =>
      let ref := String.mk (Char.ofNat 123 :: d.1.data ++ [Char.ofNat 125])
      if strContains acc.1 ref then (acc.1.replace ref d.2, true) else acc)
    (result, false)

/-- The `while changed && iteration < max_iterations` loop of
`expand_macros`; returns the result together with the iteration count. -/
def expandLoop (defs : List (String × String)) :
    Nat → String → Nat → Bool → String × Nat
  | 0, result, iteration, _ => (result, iteration)
  | fuel + 1, result, iteration, changed =>
    if changed ∧ iteration < 100 then
      let r := expandPass defs result
      expandLoop defs fuel r.1 (iteration + 1) r.2
    else (result, iteration)

/-- `LexFile::expand_macros`: at most 100 passes, then the circular-reference
check. -/
def expand_macros (pattern : String) (defs : List (String × String)) :
    Except String String :=
  let r := expandLoop defs 101 pattern 0 true
  if r.2 ≥ 100 then
    Except.error "Potential circular reference in macro definitions"
  else Except.ok r.1

/-- `LexSection`. -/
inductive LexSec where
  | Definitions : LexSec
  | Rules : LexSec
  | Code : LexSec
deriving DecidableEq

/-- `LexFile`: the parsed spec file. -/
structure LexFile where
  definitions : List (String × String)
  rules : List (String × String)
  code : String
deriving DecidableEq

/-- The mutable locals of the `LexFile::new` loop. -/
structure LexSt where
  definitions : List (String × String)
  rules : List (String × String)
  code : String
  pending : List (String × Nat)
  sec : LexSec
  actionAcc : String
  inAction : Bool
  braceCount : Int
  i : Nat

/-- The brace-counting loop inside a multi-line action block: `+1` on `«{»`,
`-1` on `«}»`, stopping (with a flag) as soon as the count reaches zero. -/
def closeScan : List Char → Int → Int × Bool
  | [], n => (n, false)
  | c :: rest, n =>
    if c = Char.ofNat 123 then closeScan rest (n + 1)
    else if c = Char.ofNat 125 then
      if n - 1 = 0 then (0, true) else closeScan rest (n - 1)
    else closeScan rest n

/-- The brace-counting loop over the remainder of an action start (no early
stop). -/
def fullScan : List Char → Int → Int
  | [], n => n
  | c :: rest, n =>
    fullScan rest
      (if c = Char.ofNat 123 then n + 1
       else if c = Char.ofNat 125 then n - 1 else n)

/-- The `%«{»...%«}»` skipper of the definitions section: advance past lines
until one starts with the closing marker. -/
def skipDefsGo (lines : List String) : Nat → Nat → Nat
  | 0, i => i
  | fuel + 1, i =>
    if i < lines.length ∧ ¬ strStarts (strTrim (lines.getD i "")) "%\x7d" then
      skipDefsGo lines fuel (i + 1)
    else i

/-- The main `while i < lines.len()` loop of `LexFile::new`.  Every iteration
advances `i`, so `lines.length + 2` fuel is never exhausted.  The `Code` arm
consumes the current line without recording it, then copies every later line
(each with a newline appended) and leaves the loop. -/
def lexGo (lines : List String) : Nat → LexSt → Except String LexSt
  | 0, st => Except.ok st
  | fuel + 1, st =>
    if st.i < lines.length then
      let line := strTrim (lines.getD st.i "")
      if line = "%%" then
        match st.sec with
        | LexSec.Definitions =>
          lexGo lines fuel { st with sec := LexSec.Rules, i := st.i + 1 }
        | LexSec.Rules =>
          lexGo lines fuel { st with sec := LexSec.Code, i := st.i + 1 }
        | LexSec.Code => Except.error "Unexpected section separator"
      else if line = "" ∨ strStarts line "//" ∨ strStarts line "#" then
        lexGo lines fuel { st with i := st.i + 1 }
      else
        match st.sec with
        | LexSec.Definitions =>
          if strStarts line "%\x7b" then
            let i2 := skipDefsGo lines (lines.length + 1) (st.i + 1)
            let i3 := if i2 < lines.length then i2 + 1 else i2
            lexGo lines fuel { st with i := i3 }
          else
            match line.data.findIdx? (fun c => c = Char.ofNat 32) with
            | some pos =>
              let name := strTrim (strTake line pos)
              let value := strTrim (strDrop line pos)
              match expand_macros value st.definitions with
              | Except.error e => Except.error e
              | Except.ok ev =>
                lexGo lines fuel
                  { st with definitions := defInsert st.definitions name ev,
                            i := st.i + 1 }
            | none => lexGo lines fuel { st with i := st.i + 1 }
        | LexSec.Rules =>
          if st.inAction then
            let acc2 := st.actionAcc ++ line ++ "\n"
            let r := closeScan line.data st.braceCount
            if r.2 then
              lexGo lines fuel
                { st with rules := st.rules ++ st.pending.map (fun pp => (pp.1, acc2)),
                          pending := [], actionAcc := "", inAction := false,
                          braceCount := 0, i := st.i + 1 }
            else
              lexGo lines fuel
                { st with actionAcc := acc2, braceCount := r.1, i := st.i + 1 }
          else
            match line.data.findIdx? (fun c => c.isWhitespace) with
            | none => Except.error "Malformed rule"
            | some pos =>
              let pattern0 := strTrim (strTake line pos)
              let actionStart := strTrim (strDrop line pos)
              match expand_macros pattern0 st.definitions with
              | Except.error e => Except.error e
              | Except.ok pattern =>
                if actionStart = "|" then
                  lexGo lines fuel
                    { st with pending := st.pending ++ [(pattern, st.i + 1)],
                              i := st.i + 1 }
                else if strStarts actionStart "\x7b" then
                  let acc := actionStart ++ "\n"
                  let bc := fullScan (actionStart.data.drop 1) 1
                  if bc > 0 then
                    let pending2 :=
                      if st.pending = [] then [(pattern, st.i + 1)] else st.pending
                    lexGo lines fuel
                      { st with actionAcc := acc, braceCount := bc,
                                inAction := true, pending := pending2,
                                i := st.i + 1 }
                  else
                    if st.pending ≠ [] then
                      lexGo lines fuel
                        { st with rules := st.rules ++ st.pending.map (fun pp => (pp.1, acc)),
                                  pending := [], actionAcc := "", i := st.i + 1 }
                    else
                      lexGo lines fuel
                        { st with rules := st.rules ++ [(pattern, acc)],
                                  actionAcc := "", i := st.i + 1 }
                else
                  let base :=
                    if st.pending ≠ [] then
                      st.rules ++ st.pending.map (fun pp => (pp.1, actionStart))
                    else st.rules
                  lexGo lines fuel
                    { st with rules := base ++ [(pattern, actionStart)],
                              pending := [], i := st.i + 1 }
        | LexSec.Code =>
          let code2 := (lines.drop (st.i + 1)).foldl (fun acc l => acc ++ l ++ "\n") st.code
          Except.ok { st with code := code2, i := lines.length }
    else Except.ok st

/-- `LexFile::new` on the file content (the `fs::read_to_string` I/O boundary
is outside the model): split into lines, run the section loop, then the
pending-pattern and unclosed-block checks. -/
def LexFile.new (content : String) : Except String LexFile :=
  let lines := splitLines content
  match lexGo lines (lines.length + 2)
      { definitions := [], rules := [], code := "", pending := [],
        sec := LexSec.Definitions, actionAcc := "", inAction := false,
        braceCount := 0, i := 0 } with
  | Except.error e => Except.error e
  | Except.ok st =>
    if st.pending ≠ [] then Except.error "Pattern without action"
    else if st.inAction then Except.error "Unclosed action block"
    else Except.ok { definitions := st.definitions, rules := st.rules, code := st.code }

/-! Concrete instances used by the claim theorems below. -/

/-- The NFA of the one-rule set `a?` with the rule action `ACT` attached to
its final state (state 3), as the pipeline described in the spec does before
the union/subset construction. -/
def demoNfaWithAction : NFA :=
  (NFA.optional (NFA.char 97)).add_action 3 "ACT"

/-- The NFA of the regex `a?` with no action attached. -/
def demoNfaNoAction : NFA :=
  NFA.optional (NFA.char 97)

/-- A spec file whose trailer (everything after the second `%%` line) is the
two lines `int yywrap(void);` and `return 0;`. -/
def demoLexContent : String :=
  "%%\n%%\nint yywrap(void);\nreturn 0;\n"

/-- The verbatim trailer text of `demoLexContent`. -/
def demoTrailer : String :=
  "int yywrap(void);\nreturn 0;\n"

/-! Claim theorems. -/

/-- C1: the subset construction does not preserve the language.  Evaluating
the code on the one-rule set `a?` (action `ACT` on the NFA final, state 3):
the NFA accepts the empty string, but the DFA built by `DFA::from` rejects it,
because the construction never marks the start DFA state final even though its
subset contains NFA final 3. -/
theorem c1_subset_construction_not_language_preserving :
    Regex.new [97, 63] = Except.ok (Regex.Option (Regex.Char 97)) ∧
    NFA.fromRegex (Regex.Option (Regex.Char 97)) = some (NFA.optional (NFA.char 97)) ∧
    ascList demoNfaWithAction.final_states = [3] ∧
    nfaAccepts demoNfaWithAction [] = true ∧
    DFA.acceptsWord (DFA.fromNFA demoNfaWithAction) [] = false :=
  ⟨rfl, rfl, rfl, rfl, rfl⟩

/-- C3: in `DFA::from`, finality diverges from the claim on both counts.  For
the NFA of `a?`: the start subset contains NFA final 3, yet with an action
present (`demoNfaWithAction`) the start DFA state is still not final, and with
no action present (`demoNfaNoAction`) no DFA state at all is final — the
successor state 1 (subset containing final 3) included. -/
theorem c3_final_state_assignment_diverges :
    3 ∈ demoNfaWithAction.final_states ∧
    3 ∈ demoNfaWithAction.epsilon_closure {demoNfaWithAction.start_state} ∧
    (DFA.fromNFA demoNfaWithAction).start_state = 0 ∧
    0 ∉ (DFA.fromNFA demoNfaWithAction).final_states ∧
    3 ∈ demoNfaNoAction.final_states ∧
    ascList (DFA.fromNFA demoNfaNoAction).states = [0, 1] ∧
    (DFA.fromNFA demoNfaNoAction).final_states.card = 0 :=
  ⟨by decide, by decide, rfl, by decide, by decide, rfl, rfl⟩

/-- C5 (counterexample): `NFA::dot` accepts the one-character string
consisting of the newline character (code 10), contradicting "all ASCII
except newline". -/
theorem c5_dot_accepts_newline_cex :
    nfaAccepts NFA.dot [10] = true :=
  rfl

/-- C6 (counterexample): the pattern `a` followed by the repetition range
with min 3 and max 2 parses successfully — `Regex::new` performs no `m ≤ n`
validation and returns `Bounded(Char a, 3, Some 2)` instead of an error. -/
theorem c6_bounded_min_gt_max_parses_cex :
    Regex.new [97, 123, 51, 44, 50, 125] =
      Except.ok (Regex.Bounded (Regex.Char 97) 3 (some 2)) :=
  rfl

/-- C6 (amended): for a repetition with both bounds present and `m > n`,
parsing succeeds and `NFA::bounded` builds just the `m`-fold concatenation
(the optional tail `min..max` is the empty range). -/
theorem c6_bounded_min_gt_max_behavior (inner : NFA) (m n : Nat) (h : n < m) :
    NFA.bounded inner m (some n) =
      NFA.concat_multiples (List.replicate m inner) := by
  have hz : n - m = 0 := Nat.sub_eq_zero_of_le h.le
  simp [NFA.bounded, hz]

/-- Witness for `c6_bounded_min_gt_max_behavior` at `inner = NFA::char a`,
`m = 3`, `n = 2`. -/
theorem c6_bounded_min_gt_max_behavior_witness :
    2 < 3 ∧
    NFA.bounded (NFA.char 97) 3 (some 2) =
      NFA.concat_multiples (List.replicate 3 (NFA.char 97)) :=
  ⟨by decide, c6_bounded_min_gt_max_behavior (NFA.char 97) 3 2 (by decide)⟩

/-- C7 (counterexample): `Regex::new` parses `^a` into an AST containing
`StartAnchor`, and `impl From<Regex> for NFA` panics on it (modelled `none`)
rather than returning an NFA. -/
theorem c7_anchor_nfa_panics_cex :
    Regex.new [94, 97] = Except.ok (Regex.Concat Regex.StartAnchor (Regex.Char 97)) ∧
    NFA.fromRegex (Regex.Concat Regex.StartAnchor (Regex.Char 97)) = none :=
  ⟨rfl, rfl⟩

/-- C7 (amended): the conversion panics exactly on anchors; for every AST
without an anchor node it returns an NFA. -/
theorem c7_anchor_free_fromRegex_total (r : Regex) (h : r.anchorFree = true) :
    (NFA.fromRegex r).isSome = true := by
  induction r with
  | Empty => rfl
  | Char c => rfl
  | CharClass s => rfl
  | NegatedCharClass s => rfl
  | Dot => rfl
  | StartAnchor => simp [Regex.anchorFree] at h
  | EndAnchor => simp [Regex.anchorFree] at h
  | Union l r ihl ihr =>
    simp only [Regex.anchorFree, Bool.and_eq_true] at h
    obtain ⟨a, ha⟩ := Option.isSome_iff_exists.mp (ihl h.1)
    obtain ⟨b, hb⟩ := Option.isSome_iff_exists.mp (ihr h.2)
    simp [NFA.fromRegex, ha, hb]
  | Concat l r ihl ihr =>
    simp only [Regex.anchorFree, Bool.and_eq_true] at h
    obtain ⟨a, ha⟩ := Option.isSome_iff_exists.mp (ihl h.1)
    obtain ⟨b, hb⟩ := Option.isSome_iff_exists.mp (ihr h.2)
    simp [NFA.fromRegex, ha, hb]
  | Option inner ih =>
    obtain ⟨a, ha⟩ := Option.isSome_iff_exists.mp (ih h)
    simp [NFA.fromRegex, ha]
  | Plus inner ih =>
    obtain ⟨a, ha⟩ := Option.isSome_iff_exists.mp (ih h)
    simp [NFA.fromRegex, ha]
  | Kleene inner ih =>
    obtain ⟨a, ha⟩ := Option.isSome_iff_exists.mp (ih h)
    simp [NFA.fromRegex, ha]
  | Bounded inner mn mx ih =>
    obtain ⟨a, ha⟩ := Option.isSome_iff_exists.mp (ih h)
    simp [NFA.fromRegex, ha]

/-- Witness for `c7_anchor_free_fromRegex_total` at the regex `a`. -/
theorem c7_anchor_free_fromRegex_total_witness :
    (Regex.Char 97).anchorFree = true ∧
    (NFA.fromRegex (Regex.Char 97)).isSome = true :=
  ⟨rfl, c7_anchor_free_fromRegex_total (Regex.Char 97) rfl⟩

/-- C8: the trailer is not stored verbatim.  On a spec file whose trailer is
`int yywrap(void);` + newline + `return 0;` + newline, `LexFile::new` stores
only `return 0;` plus two newlines: the first non-blank trailer line is
skipped (the `i += 1` before the collection loop) and a newline is appended to
the final empty segment. -/
theorem c8_trailer_not_verbatim :
    (LexFile.new demoLexContent).map (fun lf => lf.code) = Except.ok "return 0;\n\n" ∧
    "return 0;\n\n" ≠ demoTrailer :=
  ⟨rfl, by decide⟩

/-! Characterisation of the epsilon-closure worklist (for C9). -/

theorem mem_ascList {s : Finset Nat} {x : Nat} : x ∈ ascList s ↔ x ∈ s := by
  unfold ascList
  simp only [List.mem_filter, List.mem_range, decide_eq_true_eq]
  constructor
  · exact fun h => h.2
  · intro hx
    refine ⟨?_, hx⟩
    rcases hmax : s.max with _ | m
    · exact absurd (Finset.max_eq_bot.mp hmax) (Finset.ne_empty_of_mem hx)
    · have := Finset.le_max hx
      rw [hmax] at this
      have hxm : x ≤ m := WithBot.coe_le_coe.mp this
      simpa [hmax] using Nat.lt_succ_of_le hxm

theorem ascList_nodup (s : Finset Nat) : (ascList s).Nodup :=
  (List.nodup_range _).filter _

theorem length_ascList (s : Finset Nat) : (ascList s).length = s.card := by
  have h1 : (ascList s).toFinset = s := by
    ext x
    simp [List.mem_toFinset, mem_ascList]
  calc (ascList s).length = (ascList s).toFinset.card :=
        (List.toFinset_card_of_nodup (ascList_nodup s)).symm
    _ = s.card := by rw [h1]

theorem closureGo_grows (tr : Nat → Finset Nat) :
    ∀ (fuel : Nat) (stack : List Nat) (closure : Finset Nat),
      closure ⊆ NFA.closureGo tr fuel stack closure := by
  intro fuel
  induction fuel with
  | zero => intro stack closure; simp [NFA.closureGo]
  | succ n ih =>
    intro stack closure
    cases stack with
    | nil => simp [NFA.closureGo]
    | cons s rest =>
      calc closure ⊆ closure ∪ tr s := Finset.subset_union_left
        _ ⊆ _ := ih _ _

theorem closureGo_sound (tr : Nat → Finset Nat) :
    ∀ (fuel : Nat) (stack : List Nat) (closure : Finset Nat),
      (∀ s ∈ stack, s ∈ closure) →
      ∀ x ∈ NFA.closureGo tr fuel stack closure,
        ∃ s0 ∈ closure, Relation.ReflTransGen (fun a b => b ∈ tr a) s0 x := by
  intro fuel
  induction fuel with
  | zero =>
    intro stack closure _ x hx
    exact ⟨x, by simpa [NFA.closureGo] using hx, Relation.ReflTransGen.refl⟩
  | succ n ih =>
    intro stack closure hst x hx
    cases stack with
    | nil =>
      exact ⟨x, by simpa [NFA.closureGo] using hx, Relation.ReflTransGen.refl⟩
    | cons s rest =>
      have hs : s ∈ closure := hst s (List.mem_cons_self s rest)
      have hst2 : ∀ t ∈ ascList (tr s \ closure) ++ rest, t ∈ closure ∪ tr s := by
        intro t ht
        rcases List.mem_append.mp ht with h1 | h1
        · exact Finset.mem_union_right _ (Finset.mem_sdiff.mp (mem_ascList.mp h1)).1
        · exact Finset.mem_union_left _ (hst t (List.mem_cons_of_mem s h1))
      obtain ⟨c, hc, hreach⟩ := ih _ _ hst2 x (by simpa [NFA.closureGo] using hx)
      rcases Finset.mem_union.mp hc with h1 | h1
      · exact ⟨c, h1, hreach⟩
      · exact ⟨s, hs, Relation.ReflTransGen.head h1 hreach⟩

theorem closureGo_closed (tr : Nat → Finset Nat) (univ : Finset Nat)
    (htr : ∀ s, tr s ⊆ univ) :
    ∀ (fuel : Nat) (stack : List Nat) (closure : Finset Nat),
      (∀ s ∈ stack, s ∈ closure) →
      (∀ c ∈ closure, c ∈ stack ∨ tr c ⊆ closure) →
      stack.length + (univ \ closure).card < fuel →
      ∀ c ∈ NFA.closureGo tr fuel stack closure,
        tr c ⊆ NFA.closureGo tr fuel stack closure := by
  intro fuel
  induction fuel with
  | zero => intro stack closure _ _ hf; omega
  | succ n ih =>
    intro stack closure hst hcl hf
    cases stack with
    | nil =>
      intro c hc
      simp only [NFA.closureGo] at hc ⊢
      rcases hcl c hc with h1 | h1
      · simp at h1
      · exact h1
    | cons s rest =>
      simp only [NFA.closureGo]
      set ts := tr s with hts
      set newL := ascList (ts \ closure) with hnew
      apply ih (newL ++ rest) (closure ∪ ts)
      · intro t ht
        rcases List.mem_append.mp ht with h1 | h1
        · exact Finset.mem_union_right _ (Finset.mem_sdiff.mp (mem_ascList.mp h1)).1
        · exact Finset.mem_union_left _ (hst t (List.mem_cons_of_mem s h1))
      · intro c hc
        by_cases hcc : c ∈ closure
        · rcases hcl c hcc with h1 | h1
          · rcases List.mem_cons.mp h1 with h2 | h2
            · right
              rw [h2, ← hts]
              exact Finset.subset_union_right
            · exact Or.inl (List.mem_append.mpr (Or.inr h2))
          · exact Or.inr (h1.trans Finset.subset_union_left)
        · left
          apply List.mem_append.mpr
          left
          rw [hnew]
          exact mem_ascList.mpr (Finset.mem_sdiff.mpr
            ⟨(Finset.mem_union.mp hc).resolve_left hcc, hcc⟩)
      · have hlen : newL.length = (ts \ closure).card := by
          rw [hnew]; exact length_ascList _
        have hsub : univ \ (closure ∪ ts) = (univ \ closure) \ (ts \ closure) := by
          ext x
          simp only [Finset.mem_sdiff, Finset.mem_union]
          tauto
        have hss : ts \ closure ⊆ univ \ closure := by
          intro x hx
          rcases Finset.mem_sdiff.mp hx with ⟨hx1, hx2⟩
          exact Finset.mem_sdiff.mpr ⟨htr s hx1, hx2⟩
        have hcard : (univ \ (closure ∪ ts)).card =
            (univ \ closure).card - (ts \ closure).card := by
          rw [hsub, Finset.card_sdiff hss]
        have hle : (ts \ closure).card ≤ (univ \ closure).card :=
          Finset.card_le_card hss
        simp only [List.length_append, List.length_cons] at hf ⊢
        omega

theorem epsSucc_subset_epsTargets (nfa : NFA) (s : Nat) :
    NFA.epsSucc nfa s ⊆ NFA.epsTargets nfa := by
  have foldA : ∀ (l : List ((Nat × Sym) × Finset Nat)) (acc : Finset Nat),
      acc ⊆ l.foldl
        (fun acc e => match e.1.2 with | Sym.eps => acc ∪ e.2 | _ => acc) acc := by
    intro l
    induction l with
    | nil => intro acc; exact subset_rfl
    | cons e rest ih =>
      intro acc
      refine subset_trans ?_ (ih _)
      rcases e with ⟨⟨a, sym⟩, ts⟩
      cases sym with
      | eps => exact Finset.subset_union_left
      | ch c => exact subset_rfl
      | cls s2 => exact subset_rfl
  have foldB : ∀ (l : List ((Nat × Sym) × Finset Nat))
      (e : (Nat × Sym) × Finset Nat), e ∈ l → e.1.2 = Sym.eps →
      ∀ acc, e.2 ⊆ l.foldl
        (fun acc e => match e.1.2 with | Sym.eps => acc ∪ e.2 | _ => acc) acc := by
    intro l
    induction l with
    | nil => intro e he; simp at he
    | cons f rest ih =>
      intro e he heps acc
      rcases List.mem_cons.mp he with h1 | h1
      · subst h1
        simp only [List.foldl_cons, heps]
        exact subset_trans Finset.subset_union_right (foldA rest _)
      · exact ih e h1 heps _
  unfold NFA.epsSucc
  rcases hfind : transLookup nfa.transitions (s, Sym.eps) with _ | ts
  · simp
  · unfold transLookup at hfind
    rcases hf : nfa.transitions.find? (fun e => decide (e.1 = (s, Sym.eps))) with _ | e
    · rw [hf] at hfind; simp at hfind
    · rw [hf] at hfind
      simp only [Option.map_some', Option.some.injEq] at hfind
      have hmem := List.mem_of_find?_eq_some hf
      have hkey : e.1 = (s, Sym.eps) := by
        have := List.find?_some hf
        simpa using this
      have heps : e.1.2 = Sym.eps := by rw [hkey]
      have := foldB nfa.transitions e hmem heps ∅
      unfold NFA.epsTargets
      rw [hfind] at this
      simpa using this

/-- Membership in `NFA::epsilon_closure(S)` is exactly reachability from `S`
along epsilon edges. -/
theorem mem_epsilon_closure (nfa : NFA) (S : Finset Nat) (x : Nat) :
    x ∈ nfa.epsilon_closure S ↔
      ∃ s ∈ S, Relation.ReflTransGen (epsEdge nfa) s x := by
  constructor
  · intro hx
    obtain ⟨s0, hs0, hr⟩ := closureGo_sound (NFA.epsSucc nfa) _ (ascList S) S
      (fun s hs => mem_ascList.mp hs) x hx
    exact ⟨s0, hs0, hr⟩
  · rintro ⟨s, hsS, hr⟩
    have hclosed := closureGo_closed (NFA.epsSucc nfa) (NFA.epsTargets nfa)
      (epsSucc_subset_epsTargets nfa)
      (S.card + (NFA.epsTargets nfa).card + 1) (ascList S) S
      (fun s hs => mem_ascList.mp hs)
      (fun c hc => Or.inl (mem_ascList.mpr hc))
      (by
        have h1 : (ascList S).length = S.card := length_ascList S
        have h2 : (NFA.epsTargets nfa \ S).card ≤ (NFA.epsTargets nfa).card :=
          Finset.card_le_card (Finset.sdiff_subset)
        omega)
    have hgrow := closureGo_grows (NFA.epsSucc nfa)
      (S.card + (NFA.epsTargets nfa).card + 1) (ascList S) S
    induction hr with
    | refl => exact hgrow hsS
    | tail h1 h2 ih => exact hclosed _ ih h2

/-! Scanner lemmas (for C2 and C10). -/

theorem run_append (dfa : DFA) (s : Nat) (u v : List Nat) :
    DFA.run dfa s (u ++ v) =
      match DFA.run dfa s u with
      | some t => DFA.run dfa t v
      | none => none := by
  induction u generalizing s with
  | nil => simp [DFA.run]
  | cons c rest ih =>
    simp only [List.cons_append, DFA.run]
    rcases dtransLookup dfa.transitions (s, Sym.ch c) with _ | t
    · rfl
    · exact ih t

theorem wf_lookup_mem_alphabet (dfa : DFA) (hwf : dfa.wfAlphabet = true)
    {s c t : Nat} (h : dtransLookup dfa.transitions (s, Sym.ch c) = some t) :
    c ∈ dfa.alphabet := by
  unfold dtransLookup at h
  rcases hf : dfa.transitions.find? (fun e => decide (e.1 = (s, Sym.ch c))) with _ | e
  · rw [hf] at h; simp at h
  · have hmem := List.mem_of_find?_eq_some hf
    have hkey : e.1 = (s, Sym.ch c) := by
      have := List.find?_some hf
      simpa using this
    unfold DFA.wfAlphabet at hwf
    have := List.all_eq_true.mp hwf e hmem
    rw [hkey] at this
    simpa using this

theorem scanGo_spec (dfa : DFA) (hwf : dfa.wfAlphabet = true) (input : List Nat) :
    ∀ (cs : List Nat) (i cur : Nat) (last : Option Nat) (lastLen : Nat),
      cs = input.drop i →
      i ≤ input.length →
      DFA.run dfa dfa.start_state (input.take i) = some cur →
      (match last with
       | none => lastLen = 0 ∧ ∀ n, 1 ≤ n → n ≤ i → dfa.acceptsTake input n = false
       | some st => 1 ≤ lastLen ∧ lastLen ≤ i ∧
           DFA.run dfa dfa.start_state (input.take lastLen) = some st ∧
           st ∈ dfa.final_states ∧
           ∀ n, 1 ≤ n → n ≤ i → dfa.acceptsTake input n = true → n ≤ lastLen) →
      (match DFA.scanGo dfa cs i cur last lastLen with
       | (none, len) => len = 0 ∧
           ∀ n, 1 ≤ n → n ≤ input.length → dfa.acceptsTake input n = false
       | (some st, len) => 1 ≤ len ∧ len ≤ input.length ∧
           DFA.run dfa dfa.start_state (input.take len) = some st ∧
           st ∈ dfa.final_states ∧
           ∀ n, 1 ≤ n → n ≤ input.length → dfa.acceptsTake input n = true → n ≤ len) := by
  intro cs
  induction cs with
  | nil =>
    intro i cur last lastLen hcs hi hcur hinv
    have hlen : input.length ≤ i := by
      by_contra hc
      push_neg at hc
      have : input.drop i ≠ [] := by
        intro he
        have := List.drop_eq_nil_iff.mp he
        omega
      exact this hcs.symm
    have hieq : i = input.length := le_antisymm hi hlen
    subst hieq
    rcases last with _ | st
    · simpa [DFA.scanGo] using hinv
    · simpa [DFA.scanGo] using hinv
  | cons c rest ih =>
    intro i cur last lastLen hcs hi hcur hinv
    have hget : input[i]? = some c := by
      have h0 : (input.drop i)[0]? = some c := by rw [← hcs]; simp
      rwa [List.getElem?_drop, Nat.add_zero] at h0
    have hilt : i < input.length := by
      by_contra hc
      push_neg at hc
      rw [List.getElem?_eq_none hc] at hget
      exact Option.noConfusion hget
    have htake1 : input.take (i + 1) = input.take i ++ [c] := by
      rw [List.take_succ, hget]
      rfl
    have hdrop1 : input.drop (i + 1) = rest := by
      have : input.drop (i + 1) = (input.drop i).drop 1 := by
        rw [List.drop_drop]
      rw [this, ← hcs]
      rfl
    -- the run over one more char
    have hrun1 : DFA.run dfa dfa.start_state (input.take (i + 1)) =
        (match dtransLookup dfa.transitions (cur, Sym.ch c) with
         | some t => some t
         | none => none) := by
      rw [htake1, run_append, hcur]
      rcases h2 : dtransLookup dfa.transitions (cur, Sym.ch c) with _ | t <;>
        simp [DFA.run, h2]
    -- once the run dies at position i, no longer prefix is accepted
    have hdead : DFA.run dfa dfa.start_state (input.take (i + 1)) = none →
        ∀ n, i + 1 ≤ n → dfa.acceptsTake input n = false := by
      intro hnone n hn
      have hsplit : input.take n = input.take (i + 1) ++ (input.drop (i + 1)).take (n - (i + 1)) := by
        conv_lhs => rw [show n = (i + 1) + (n - (i + 1)) by omega]
        rw [List.take_add]
      unfold DFA.acceptsTake DFA.acceptsWord
      rw [hsplit, run_append, hnone]
    rcases halph : decide (c ∈ dfa.alphabet) with _ | _
    · -- char outside the alphabet: the loop stops here
      have halph2 : c ∉ dfa.alphabet := of_decide_eq_false halph
      have hstop : DFA.scanGo dfa (c :: rest) i cur last lastLen = (last, lastLen) := by
        simp [DFA.scanGo, halph2]
      rw [hstop]
      have hnotr : dtransLookup dfa.transitions (cur, Sym.ch c) = none := by
        rcases hl : dtransLookup dfa.transitions (cur, Sym.ch c) with _ | t
        · rfl
        · exact absurd (wf_lookup_mem_alphabet dfa hwf hl) halph2
      have hnone : DFA.run dfa dfa.start_state (input.take (i + 1)) = none := by
        rw [hrun1, hnotr]
      rcases last with _ | st
      · obtain ⟨h0, hno⟩ := hinv
        refine ⟨h0, fun n h1 h2 => ?_⟩
        rcases Nat.lt_or_ge n (i + 1) with h3 | h3
        · exact hno n h1 (by omega)
        · exact hdead hnone n h3
      · obtain ⟨h1, h2, h3, h4, h5⟩ := hinv
        refine ⟨h1, by omega, h3, h4, fun n hn1 hn2 hacc => ?_⟩
        rcases Nat.lt_or_ge n (i + 1) with h6 | h6
        · exact h5 n hn1 (by omega) hacc
        · rw [hdead hnone n h6] at hacc
          exact Bool.noConfusion hacc
    · have halph2 : c ∈ dfa.alphabet := of_decide_eq_true halph
      rcases hl : dtransLookup dfa.transitions (cur, Sym.ch c) with _ | nxt
      · -- no transition: the loop stops here
        have hstop : DFA.scanGo dfa (c :: rest) i cur last lastLen = (last, lastLen) := by
          simp [DFA.scanGo, halph2, hl]
        rw [hstop]
        have hnone : DFA.run dfa dfa.start_state (input.take (i + 1)) = none := by
          rw [hrun1, hl]
        rcases last with _ | st
        · obtain ⟨h0, hno⟩ := hinv
          refine ⟨h0, fun n h1 h2 => ?_⟩
          rcases Nat.lt_or_ge n (i + 1) with h3 | h3
          · exact hno n h1 (by omega)
          · exact hdead hnone n h3
        · obtain ⟨h1, h2, h3, h4, h5⟩ := hinv
          refine ⟨h1, by omega, h3, h4, fun n hn1 hn2 hacc => ?_⟩
          rcases Nat.lt_or_ge n (i + 1) with h6 | h6
          · exact h5 n hn1 (by omega) hacc
          · rw [hdead hnone n h6] at hacc
            exact Bool.noConfusion hacc
      · -- transition taken
        have hruns : DFA.run dfa dfa.start_state (input.take (i + 1)) = some nxt := by
          rw [hrun1, hl]
        rcases hfin : decide (nxt ∈ dfa.final_states) with _ | _
        · -- new state not final: keep the recorded accept
          have hfin2 : nxt ∉ dfa.final_states := of_decide_eq_false hfin
          have hstep : DFA.scanGo dfa (c :: rest) i cur last lastLen =
              DFA.scanGo dfa rest (i + 1) nxt last lastLen := by
            simp [DFA.scanGo, halph2, hl, hfin2]
          rw [hstep]
          have hacc1 : dfa.acceptsTake input (i + 1) = false := by
            unfold DFA.acceptsTake DFA.acceptsWord
            rw [hruns]
            simpa using hfin2
          apply ih (i + 1) nxt last lastLen hdrop1.symm (by omega) hruns
          rcases last with _ | st
          · obtain ⟨h0, hno⟩ := hinv
            refine ⟨h0, fun n h1 h2 => ?_⟩
            rcases Nat.lt_or_ge n (i + 1) with h3 | h3
            · exact hno n h1 (by omega)
            · have : n = i + 1 := by omega
              rw [this]
              exact hacc1
          · obtain ⟨h1, h2, h3, h4, h5⟩ := hinv
            refine ⟨h1, by omega, h3, h4, fun n hn1 hn2 hacc => ?_⟩
            rcases Nat.lt_or_ge n (i + 1) with h6 | h6
            · exact h5 n hn1 (by omega) hacc
            · have : n = i + 1 := by omega
              rw [this] at hacc
              rw [hacc1] at hacc
              exact Bool.noConfusion hacc
        · -- new state final: record the new longest accept
          have hfin2 : nxt ∈ dfa.final_states := of_decide_eq_true hfin
          have hstep : DFA.scanGo dfa (c :: rest) i cur last lastLen =
              DFA.scanGo dfa rest (i + 1) nxt (some nxt) (i + 1) := by
            simp [DFA.scanGo, halph2, hl, hfin2]
          rw [hstep]
          apply ih (i + 1) nxt (some nxt) (i + 1) hdrop1.symm (by omega) hruns
          exact ⟨by omega, le_refl _, hruns, hfin2, fun n _ hn2 _ => hn2⟩

theorem pickGo_none (finals : Finset Nat) :
    ∀ (l : List Nat) (best : Option Nat),
      l.foldl
        (fun best s =>
          if s ∈ finals then
            match best with
            | none => some s
            | some b => if s < b then some s else some b
          else best) best = none →
      best = none ∧ ∀ s ∈ l, s ∉ finals := by
  intro l
  induction l with
  | nil => intro best h; exact ⟨h, by simp⟩
  | cons s rest ih =>
    intro best h
    simp only [List.foldl_cons] at h
    obtain ⟨hstep, hrest⟩ := ih _ h
    by_cases hs : s ∈ finals
    · rw [if_pos hs] at hstep
      rcases best with _ | b
      · exact Option.noConfusion hstep
      · have hstep2 : (if s < b then some s else some b) = none := hstep
        by_cases hlt : s < b
        · rw [if_pos hlt] at hstep2
          exact Option.noConfusion hstep2
        · rw [if_neg hlt] at hstep2
          exact Option.noConfusion hstep2
    · rw [if_neg hs] at hstep
      refine ⟨hstep, fun t ht => ?_⟩
      rcases List.mem_cons.mp ht with h1 | h1
      · rwa [h1]
      · exact hrest t h1

theorem pickGo_some (finals : Finset Nat) :
    ∀ (l : List Nat) (best : Option Nat) (st : Nat),
      l.foldl
        (fun best s =>
          if s ∈ finals then
            match best with
            | none => some s
            | some b => if s < b then some s else some b
          else best) best = some st →
      (best = some st ∨ (st ∈ l ∧ st ∈ finals)) ∧
      (∀ s ∈ l, s ∈ finals → st ≤ s) ∧
      (∀ b, best = some b → st ≤ b) := by
  intro l
  induction l with
  | nil =>
    intro best st h
    simp only [List.foldl_nil] at h
    exact ⟨Or.inl h, by simp, fun b hb => by rw [h] at hb; injection hb with hb; omega⟩
  | cons s rest ih =>
    intro best st h
    simp only [List.foldl_cons] at h
    by_cases hs : s ∈ finals
    · rcases best with _ | b
      · replace h : rest.foldl
            (fun best s =>
              if s ∈ finals then
                match best with
                | none => some s
                | some b => if s < b then some s else some b
              else best) (some s) = some st := by simpa [hs] using h
        obtain ⟨hmem, hmin, hbest⟩ := ih _ _ h
        have hsts : st ≤ s := hbest s rfl
        constructor
        · rcases hmem with h1 | h1
          · injection h1 with h1
            subst h1
            exact Or.inr ⟨List.mem_cons_self s rest, hs⟩
          · exact Or.inr ⟨List.mem_cons_of_mem s h1.1, h1.2⟩
        · refine ⟨fun t ht htf => ?_, fun b hb => by simp at hb⟩
          rcases List.mem_cons.mp ht with h1 | h1
          · subst h1; exact hsts
          · exact hmin t h1 htf
      · by_cases hlt : s < b
        · replace h : rest.foldl
              (fun best s =>
                if s ∈ finals then
                  match best with
                  | none => some s
                  | some b => if s < b then some s else some b
                else best) (some s) = some st := by simpa [hs, hlt] using h
          obtain ⟨hmem, hmin, hbest⟩ := ih _ _ h
          have hsts : st ≤ s := hbest s rfl
          constructor
          · rcases hmem with h1 | h1
            · injection h1 with h1
              subst h1
              exact Or.inr ⟨List.mem_cons_self s rest, hs⟩
            · exact Or.inr ⟨List.mem_cons_of_mem s h1.1, h1.2⟩
          · refine ⟨fun t ht htf => ?_, fun b2 hb2 => ?_⟩
            · rcases List.mem_cons.mp ht with h1 | h1
              · subst h1; exact hsts
              · exact hmin t h1 htf
            · injection hb2 with hb2
              omega
        · replace h : rest.foldl
              (fun best s =>
                if s ∈ finals then
                  match best with
                  | none => some s
                  | some b => if s < b then some s else some b
                else best) (some b) = some st := by simpa [hs, hlt] using h
          obtain ⟨hmem, hmin, hbest⟩ := ih _ _ h
          have hstb : st ≤ b := hbest b rfl
          constructor
          · rcases hmem with h1 | h1
            · exact Or.inl h1
            · exact Or.inr ⟨List.mem_cons_of_mem s h1.1, h1.2⟩
          · refine ⟨fun t ht htf => ?_, fun b2 hb2 => ?_⟩
            · rcases List.mem_cons.mp ht with h1 | h1
              · subst h1; omega
              · exact hmin t h1 htf
            · injection hb2 with hb2
              omega
    · replace h : rest.foldl
          (fun best s =>
            if s ∈ finals then
              match best with
              | none => some s
              | some b => if s < b then some s else some b
            else best) best = some st := by simpa [hs] using h
      obtain ⟨hmem, hmin, hbest⟩ := ih _ _ h
      constructor
      · rcases hmem with h1 | h1
        · exact Or.inl h1
        · exact Or.inr ⟨List.mem_cons_of_mem s h1.1, h1.2⟩
      · refine ⟨fun t ht htf => ?_, hbest⟩
        rcases List.mem_cons.mp ht with h1 | h1
        · subst h1; exact absurd htf hs
        · exact hmin t h1 htf

/-- C2: the scanner implements longest-match, first-declared-rule-wins
scanning.  For any well-formed DFA (transition chars lie in the alphabet, as
the subset construction guarantees): the token and rest returned by
`scan_next_token` are a take/drop split of the input; an empty token means no
non-empty prefix is accepted; a non-empty token is an accepted prefix, is at
least as long as every accepted non-empty prefix, and carries the action of
the DFA state it reaches (`UNKNOWN` when that state has none); `simulate`
consumes exactly these tokens.  Equal-length ties between rules are decided
inside `DFA::from` by `highest_priority_state`, shown here to pick exactly the
smallest NFA final id of the subset — the earliest-declared rule. -/
theorem c2_scanner_longest_match (dfa : DFA) (hwf : dfa.wfAlphabet = true)
    (input : List Nat) :
    (∀ (finals subset : Finset Nat) (st : Nat),
       DFA.pickFinal finals subset = some st →
       st ∈ subset ∧ st ∈ finals ∧ ∀ x ∈ subset, x ∈ finals → st ≤ x) ∧
    (∀ (finals subset : Finset Nat) (x : Nat),
       x ∈ subset → x ∈ finals → (DFA.pickFinal finals subset).isSome = true) ∧
    (dfa.scan_next_token input).1 = input.take (dfa.scan_next_token input).1.length ∧
    (dfa.scan_next_token input).2.2 = input.drop (dfa.scan_next_token input).1.length ∧
    ((dfa.scan_next_token input).1 = [] →
       ∀ n, 1 ≤ n → n ≤ input.length → dfa.acceptsTake input n = false) ∧
    ((dfa.scan_next_token input).1 ≠ [] →
       ∃ st, DFA.run dfa dfa.start_state (dfa.scan_next_token input).1 = some st ∧
         st ∈ dfa.final_states ∧
         (∀ n, 1 ≤ n → n ≤ input.length → dfa.acceptsTake input n = true →
            n ≤ (dfa.scan_next_token input).1.length) ∧
         (dfa.scan_next_token input).2.1 = (actLookup dfa.actions st).getD "UNKNOWN") ∧
    (∀ tok act rest2, dfa.scan_next_token input = (tok, act, rest2) → tok ≠ [] →
       dfa.simulate input = (tok, act) :: dfa.simulate rest2) := by
  have hpick1 : ∀ (finals subset : Finset Nat) (st : Nat),
      DFA.pickFinal finals subset = some st →
      st ∈ subset ∧ st ∈ finals ∧ ∀ x ∈ subset, x ∈ finals → st ≤ x := by
    intro finals subset st h
    obtain ⟨hmem, hmin, -⟩ := pickGo_some finals (ascList subset) none st h
    rcases hmem with h1 | h1
    · exact Option.noConfusion h1
    · exact ⟨mem_ascList.mp h1.1, h1.2,
        fun x hx hxf => hmin x (mem_ascList.mpr hx) hxf⟩
  have hpick2 : ∀ (finals subset : Finset Nat) (x : Nat),
      x ∈ subset → x ∈ finals → (DFA.pickFinal finals subset).isSome = true := by
    intro finals subset x hx hxf
    rcases hres : DFA.pickFinal finals subset with _ | st
    · obtain ⟨-, hno⟩ := pickGo_none finals (ascList subset) none hres
      exact absurd hxf (hno x (mem_ascList.mpr hx))
    · rfl
  have spec := scanGo_spec dfa hwf input input 0 dfa.start_state none 0
    (List.drop_zero input).symm (Nat.zero_le _) (by simp [DFA.run])
    ⟨rfl, fun n h1 h2 => absurd (h1.trans h2) (by omega)⟩
  rcases hsg : DFA.scanGo dfa input 0 dfa.start_state none 0 with ⟨stq, len⟩
  rw [hsg] at spec
  have hscan : dfa.scan_next_token input =
      match (stq, len) with
      | (some st, len) =>
        (input.take len, (actLookup dfa.actions st).getD "UNKNOWN", input.drop len)
      | (none, _) => ([], "", input) := by
    unfold DFA.scan_next_token
    rw [hsg]
  rcases stq with _ | st
  · -- no accepting prefix
    obtain ⟨-, hno⟩ := spec
    simp only at hscan
    refine ⟨hpick1, hpick2, ?_, ?_, fun _ => hno, fun hne => ?_, fun tok act rest2 heq htok => ?_⟩
    · rw [hscan]
      rfl
    · rw [hscan]
      rfl
    · rw [hscan] at hne
      simp at hne
    · rw [hscan] at heq
      injection heq with h1 h2
      exact absurd h1.symm htok
  · -- accepting prefix of length len
    obtain ⟨hlen1, hlen2, hrun, hfin, hmax⟩ := spec
    simp only at hscan
    have htoklen : (input.take len).length = len := by
      rw [List.length_take]
      omega
    have htokne : input.take len ≠ [] := by
      intro he
      have := congrArg List.length he
      rw [htoklen] at this
      simp at this
      omega
    refine ⟨hpick1, hpick2, ?_, ?_, fun h0 => ?_, fun _ => ?_, fun tok act rest2 heq htok => ?_⟩
    · rw [hscan]
      simp only [htoklen]
    · rw [hscan]
      simp only [htoklen]
    · rw [hscan] at h0
      exact absurd h0 htokne
    · refine ⟨st, ?_, hfin, ?_, ?_⟩
      · rw [hscan]
        simpa using hrun
      · rw [hscan]
        simpa only [htoklen] using hmax
      · rw [hscan]
    · have hinput : input ≠ [] := by
        intro he
        rw [he] at htokne
        simp at htokne
      conv_lhs => rw [DFA.simulate]
      rw [if_neg hinput, heq]
      simp [htok]

/-- Witness for `c2_scanner_longest_match`: the DFA of the `a?` rule set is
well-formed and the theorem applies to it on the input `ab`. -/
theorem c2_scanner_longest_match_witness :
    (DFA.fromNFA demoNfaWithAction).wfAlphabet = true ∧
    ((DFA.fromNFA demoNfaWithAction).scan_next_token [97, 98]).2.2 =
      [97, 98].drop ((DFA.fromNFA demoNfaWithAction).scan_next_token [97, 98]).1.length :=
  ⟨by decide,
   (c2_scanner_longest_match (DFA.fromNFA demoNfaWithAction) (by decide)
      [97, 98]).2.2.2.1⟩

theorem scan_rest_length_lt (dfa : DFA) (input : List Nat) :
    (dfa.scan_next_token input).1 ≠ [] →
    (dfa.scan_next_token input).2.2.length < input.length := by
  unfold DFA.scan_next_token
  rcases hsg : DFA.scanGo dfa input 0 dfa.start_state none 0 with ⟨stq, len⟩
  rcases stq with _ | st
  · simp
  · intro htok
    simp only at htok ⊢
    rw [List.length_drop]
    have h2 : input ≠ [] := by
      intro he
      rw [he] at htok
      simp at htok
    have h3 : len ≠ 0 := by
      intro he
      rw [he] at htok
      simp at htok
    have h4 : input.length ≠ 0 := by simpa using h2
    omega

/-- C10: `DFA::simulate` terminates on every finite input — the embedding is
a total function whose loop measure is the shrinking remainder — and its
result is a finite token list, no longer than the input, in which every token
is a non-empty string. -/
theorem c10_simulate_tokens_nonempty_and_finite (dfa : DFA) (input : List Nat) :
    ((dfa.simulate input).all (fun p => !p.1.isEmpty)) = true ∧
    (dfa.simulate input).length ≤ input.length := by
  suffices H : ∀ (N : Nat) (inp : List Nat), inp.length ≤ N →
      ((dfa.simulate inp).all (fun p => !p.1.isEmpty)) = true ∧
      (dfa.simulate inp).length ≤ inp.length from
    H input.length input (le_refl _)
  intro N
  induction N with
  | zero =>
    intro inp hlen
    have hinp : inp = [] := by
      cases inp with
      | nil => rfl
      | cons a b => simp at hlen
    subst hinp
    have hsim : dfa.simulate [] = [] := by
      rw [DFA.simulate]
      simp
    rw [hsim]
    exact ⟨rfl, by simp⟩
  | succ n ihN =>
    intro inp hlen
    by_cases hinp : inp = []
    · subst hinp
      have hsim : dfa.simulate [] = [] := by
        rw [DFA.simulate]
        simp
      rw [hsim]
      exact ⟨rfl, by simp⟩
    · rcases hscan : dfa.scan_next_token inp with ⟨tok, act, rest⟩
      by_cases htok : tok = []
      · have hsim : dfa.simulate inp = [] := by
          conv_lhs => rw [DFA.simulate]
          rw [if_neg hinp, hscan]
          simp [htok]
        rw [hsim]
        exact ⟨rfl, by simp⟩
      · have hsim : dfa.simulate inp = (tok, act) :: dfa.simulate rest := by
          conv_lhs => rw [DFA.simulate]
          rw [if_neg hinp, hscan]
          simp [htok]
        have hlt : rest.length < inp.length := by
          have := scan_rest_length_lt dfa inp
          rw [hscan] at this
          exact this htok
        obtain ⟨iha, ihl⟩ := ihN rest (by omega)
        rw [hsim]
        constructor
        · simp only [List.all_cons, Bool.and_eq_true]
          exact ⟨by simpa using htok, iha⟩
        · simp only [List.length_cons]
          omega

/-- C5 (amended): the NFA built by `NFA::dot` accepts exactly the
one-character strings over the full ASCII range 0..=127 — the newline
character included, since the constructor inserts every char of `0..128`. -/
theorem c5_dot_accepts_exactly_ascii (w : List Nat) :
    nfaAccepts NFA.dot w = true ↔ ∃ c, c < 128 ∧ w = [c] := by
  have hmove0 : ∀ c, nfaMove NFA.dot {0} c =
      if c < 128 then ({1} : Finset Nat) else ∅ := by
    intro c
    unfold nfaMove
    rw [show ascList ({0} : Finset Nat) = [0] from rfl]
    rw [show NFA.dot.transitions =
      [((0, Sym.cls (Finset.range 128)), ({1} : Finset Nat))] from rfl]
    by_cases hc : c < 128 <;>
      simp [hc, transLookup, List.find?, Finset.mem_range]
  have hstep0 : ∀ c, nfaStep NFA.dot {0} c =
      if c < 128 then ({1} : Finset Nat) else ∅ := by
    intro c
    unfold nfaStep
    rw [hmove0 c]
    by_cases hc : c < 128
    · rw [if_pos hc]
      rfl
    · rw [if_neg hc]
      rfl
  have hone : ∀ d, nfaStep NFA.dot {1} d = ∅ := fun d => rfl
  have hempty : ∀ d, nfaStep NFA.dot ∅ d = ∅ := fun d => rfl
  have hfold : ∀ (l : List Nat), l.foldl (nfaStep NFA.dot) ∅ = ∅ := by
    intro l
    induction l with
    | nil => rfl
    | cons d rest ih => rw [List.foldl_cons, hempty d, ih]
  unfold nfaAccepts
  rw [show NFA.dot.epsilon_closure {NFA.dot.start_state} = {0} from rfl]
  rw [show NFA.dot.final_states = {1} from rfl]
  rcases w with _ | ⟨c, _ | ⟨d, w2⟩⟩
  · apply iff_of_false
    · simp [show ({0} : Finset Nat) ∩ {1} = ∅ from rfl]
    · rintro ⟨c, -, h2⟩
      exact List.noConfusion h2
  · simp only [List.foldl_cons, List.foldl_nil, hstep0 c]
    by_cases hc : c < 128 <;> simp [hc]
  · simp only [List.foldl_cons]
    have h1 : nfaStep NFA.dot (nfaStep NFA.dot {0} c) d = ∅ := by
      rw [hstep0 c]
      by_cases hc : c < 128
      · rw [if_pos hc]
        exact hone d
      · rw [if_neg hc]
        exact hempty d
    simp only [h1, hfold]
    simp

/-! State-allocation lemmas for `NFA::concat` (for C4). -/

theorem ascList_toFinset (s : Finset Nat) : (ascList s).toFinset = s := by
  ext x
  simp [List.mem_toFinset, mem_ascList]

theorem range_max (n : Nat) : (Finset.range (n + 1)).max = some n := by
  induction n with
  | zero => rfl
  | succ m ih =>
    rw [Finset.range_succ, Finset.max_insert, ih]
    exact max_eq_left (WithBot.coe_le_coe.mpr (by omega))

theorem add_state_spec (nfa : NFA) (k : Nat) (h : nfa.states = Finset.range k) :
    nfa.add_state = ({ nfa with states := Finset.range (k + 1) }, k) := by
  unfold NFA.add_state
  cases k with
  | zero =>
    have h0 : nfa.states = ∅ := by simpa using h
    simp [h0, Finset.range_one]
  | succ n =>
    have hne2 : (Finset.range (n + 1) : Finset Nat) ≠ ∅ :=
      Finset.nonempty_iff_ne_empty.mp (Finset.nonempty_range_iff.mpr (by omega))
    simp only [h, range_max, Option.getD_some, if_neg hne2]
    rw [show insert (n + 1) (Finset.range (n + 1)) = Finset.range (n + 1 + 1) from
      (Finset.range_succ).symm]

theorem actLookup_cons (k : Nat) (v : String) (l : List (Nat × String)) (j : Nat) :
    actLookup ((k, v) :: l) j = if k = j then some v else actLookup l j := by
  unfold actLookup
  by_cases h : k = j
  · simp [List.find?, h]
  · simp [List.find?, h]

theorem mapApply_zip :
    ∀ (l : List Nat), l.Nodup →
      ∀ (k idx : Nat) (h : idx < l.length),
        NFA.mapApply (l.zip (List.range' k l.length)) (l.get ⟨idx, h⟩) = k + idx := by
  intro l
  induction l with
  | nil => intro _ k idx h; simp at h
  | cons s l2 ih =>
    intro hnd k idx h
    obtain ⟨hs, hnd2⟩ := List.nodup_cons.mp hnd
    cases idx with
    | zero =>
      show NFA.mapApply ((s, k) :: l2.zip (List.range' (k + 1) l2.length)) s = k + 0
      simp [NFA.mapApply, List.find?]
    | succ idx2 =>
      have h2 : idx2 < l2.length := by simpa using h
      show NFA.mapApply ((s, k) :: l2.zip (List.range' (k + 1) l2.length))
        (l2.get ⟨idx2, h2⟩) = k + (idx2 + 1)
      have hne : s ≠ l2.get ⟨idx2, h2⟩ := fun he => hs (he ▸ List.get_mem l2 idx2 h2)
      unfold NFA.mapApply
      rw [@List.find?_cons_of_neg (Nat × Nat)
        (fun e => decide (e.1 = l2.get ⟨idx2, h2⟩)) (s, k)
        (l2.zip (List.range' (k + 1) l2.length)) (by simpa using hne)]
      have := ih hnd2 (k + 1) idx2 h2
      unfold NFA.mapApply at this
      rw [this]
      omega

theorem fold_preserves {α : Type} (step : NFA → α → NFA)
    (h : ∀ nfa x, (step nfa x).actions = nfa.actions ∧
      (step nfa x).final_states = nfa.final_states) :
    ∀ (l : List α) (nfa : NFA),
      (l.foldl step nfa).actions = nfa.actions ∧
      (l.foldl step nfa).final_states = nfa.final_states := by
  intro l
  induction l with
  | nil => intro nfa; exact ⟨rfl, rfl⟩
  | cons x rest ih =>
    intro nfa
    rw [List.foldl_cons]
    obtain ⟨h1, h2⟩ := ih (step nfa x)
    obtain ⟨h3, h4⟩ := h nfa x
    exact ⟨h1.trans h3, h2.trans h4⟩

theorem add_transition_fields (nfa : NFA) (a : Nat) (sym : Sym) (b : Nat) :
    (nfa.add_transition a sym b).actions = nfa.actions ∧
    (nfa.add_transition a sym b).final_states = nfa.final_states := by
  cases sym <;> exact ⟨rfl, rfl⟩

theorem copyTransitions_fields (acc : NFA) (m : List (Nat × Nat)) (src : NFA) :
    (NFA.copyTransitions acc m src).actions = acc.actions ∧
    (NFA.copyTransitions acc m src).final_states = acc.final_states := by
  unfold NFA.copyTransitions
  exact fold_preserves _
    (fun nfa e => fold_preserves _
      (fun nfa2 t => add_transition_fields nfa2 (NFA.mapApply m e.1.1) e.1.2
        (NFA.mapApply m t)) (ascList e.2) nfa)
    src.transitions acc

theorem concatLinkFinals_fields (acc : NFA) (m1 m2 : List (Nat × Nat))
    (first second : NFA) :
    (NFA.concatLinkFinals acc m1 m2 first second).actions = acc.actions ∧
    (NFA.concatLinkFinals acc m1 m2 first second).final_states = acc.final_states := by
  unfold NFA.concatLinkFinals
  exact fold_preserves _
    (fun nfa f => add_transition_fields nfa (NFA.mapApply m1 f) Sym.eps
      (NFA.mapApply m2 second.start_state))
    (ascList first.final_states) acc

theorem importStep_none (src nfa : NFA) (m : List (Nat × Nat)) (k s : Nat)
    (hk : nfa.states = Finset.range k)
    (hact : actLookup src.actions s = none) :
    NFA.importStep src (nfa, m) s =
      ({ nfa with states := Finset.range (k + 1) }, m ++ [(s, k)]) := by
  unfold NFA.importStep
  rw [add_state_spec nfa k hk, hact]

theorem importStep_some (src nfa : NFA) (m : List (Nat × Nat)) (k s : Nat)
    (a : String) (hk : nfa.states = Finset.range k)
    (hact : actLookup src.actions s = some a) :
    NFA.importStep src (nfa, m) s =
      ({ nfa with states := Finset.range (k + 1)
                  actions := (k, a) :: nfa.actions }, m ++ [(s, k)]) := by
  unfold NFA.importStep
  rw [add_state_spec nfa k hk, hact]
  rfl

theorem importGo_spec (src : NFA) :
    ∀ (l : List Nat) (nfa : NFA) (m : List (Nat × Nat)) (k : Nat),
      nfa.states = Finset.range k →
      ((l.foldl (NFA.importStep src) (nfa, m)).1.states = Finset.range (k + l.length) ∧
       (l.foldl (NFA.importStep src) (nfa, m)).2 = m ++ l.zip (List.range' k l.length) ∧
       (l.foldl (NFA.importStep src) (nfa, m)).1.transitions = nfa.transitions ∧
       (l.foldl (NFA.importStep src) (nfa, m)).1.final_states = nfa.final_states ∧
       (l.foldl (NFA.importStep src) (nfa, m)).1.start_state = nfa.start_state ∧
       (l.foldl (NFA.importStep src) (nfa, m)).1.alphabet = nfa.alphabet ∧
       (∀ j, j < k →
          actLookup (l.foldl (NFA.importStep src) (nfa, m)).1.actions j =
            actLookup nfa.actions j)) := by
  intro l
  induction l with
  | nil =>
    intro nfa m k hk
    refine ⟨by simpa using hk, by simp, rfl, rfl, rfl, rfl, fun j _ => rfl⟩
  | cons s l2 ih =>
    intro nfa m k hk
    rw [List.foldl_cons]
    rcases hact : actLookup src.actions s with _ | a
    · rw [importStep_none src nfa m k s hk hact]
      obtain ⟨h1, h2, h3, h4, h5, h6, h7⟩ :=
        ih { nfa with states := Finset.range (k + 1) } (m ++ [(s, k)]) (k + 1) rfl
      refine ⟨?_, ?_, h3, h4, h5, h6, fun j hj => h7 j (by omega)⟩
      · rw [h1, List.length_cons]
        congr 1
        omega
      · rw [h2, List.append_assoc]
        simp [List.range'_succ]
    · rw [importStep_some src nfa m k s a hk hact]
      obtain ⟨h1, h2, h3, h4, h5, h6, h7⟩ :=
        ih { nfa with states := Finset.range (k + 1)
                      actions := (k, a) :: nfa.actions } (m ++ [(s, k)]) (k + 1) rfl
      refine ⟨?_, ?_, h3, h4, h5, h6, fun j hj => ?_⟩
      · rw [h1, List.length_cons]
        congr 1
        omega
      · rw [h2, List.append_assoc]
        simp [List.range'_succ]
      · rw [h7 j (by omega)]
        dsimp only
        rw [actLookup_cons, if_neg (by omega)]

theorem importGo_actions (src : NFA) :
    ∀ (l : List Nat) (nfa : NFA) (m : List (Nat × Nat)) (k idx : Nat)
      (hidx : idx < l.length) (a : String),
      nfa.states = Finset.range k →
      actLookup src.actions (l.get ⟨idx, hidx⟩) = some a →
      actLookup ((l.foldl (NFA.importStep src) (nfa, m)).1.actions) (k + idx) =
        some a := by
  intro l
  induction l with
  | nil => intro nfa m k idx hidx a _ _; simp at hidx
  | cons s l2 ih =>
    intro nfa m k idx hidx a hk hget
    rw [List.foldl_cons]
    cases idx with
    | zero =>
      have hs : (s :: l2).get ⟨0, hidx⟩ = s := rfl
      rw [hs] at hget
      rw [importStep_some src nfa m k s a hk hget]
      obtain ⟨-, -, -, -, -, -, h7⟩ :=
        importGo_spec src l2 { nfa with states := Finset.range (k + 1)
                                        actions := (k, a) :: nfa.actions }
          (m ++ [(s, k)]) (k + 1) rfl
      have h8 := h7 k (by omega)
      have h9 : actLookup ((k, a) :: nfa.actions) k = some a := by
        rw [actLookup_cons, if_pos rfl]
      exact h8.trans h9
    | succ idx2 =>
      have h2 : idx2 < l2.length := by simpa using hidx
      have hs : (s :: l2).get ⟨idx2 + 1, hidx⟩ = l2.get ⟨idx2, h2⟩ := rfl
      rw [hs] at hget
      rcases hact : actLookup src.actions s with _ | a2
      · rw [importStep_none src nfa m k s hk hact]
        have := ih { nfa with states := Finset.range (k + 1) } (m ++ [(s, k)])
          (k + 1) idx2 h2 a rfl hget
        rw [show k + (idx2 + 1) = (k + 1) + idx2 by omega]
        exact this
      · rw [importStep_some src nfa m k s a2 hk hact]
        have := ih { nfa with states := Finset.range (k + 1)
                              actions := (k, a2) :: nfa.actions } (m ++ [(s, k)])
          (k + 1) idx2 h2 a rfl hget
        rw [show k + (idx2 + 1) = (k + 1) + idx2 by omega]
        exact this

theorem takeFinalsStep_none (sm : List (Nat × Nat)) (B nfa : NFA) (f : Nat)
    (hact : actLookup B.actions f = none) :
    NFA.takeFinalsStep sm B nfa f =
      { nfa with final_states := insert (NFA.mapApply sm f) nfa.final_states } := by
  unfold NFA.takeFinalsStep
  rw [hact]

theorem takeFinalsStep_some (sm : List (Nat × Nat)) (B nfa : NFA) (f : Nat)
    (a : String) (hact : actLookup B.actions f = some a) :
    NFA.takeFinalsStep sm B nfa f =
      { nfa with final_states := insert (NFA.mapApply sm f) nfa.final_states
                 actions := (NFA.mapApply sm f, a) :: nfa.actions } := by
  unfold NFA.takeFinalsStep
  rw [hact]
  rfl

theorem takeGo_spec (sm : List (Nat × Nat)) (B : NFA) :
    ∀ (l : List Nat) (nfa : NFA),
      ((l.foldl (NFA.takeFinalsStep sm B) nfa).final_states =
         nfa.final_states ∪ (l.map (NFA.mapApply sm)).toFinset ∧
       (l.foldl (NFA.takeFinalsStep sm B) nfa).transitions = nfa.transitions ∧
       (l.foldl (NFA.takeFinalsStep sm B) nfa).start_state = nfa.start_state ∧
       (l.foldl (NFA.takeFinalsStep sm B) nfa).alphabet = nfa.alphabet ∧
       (l.foldl (NFA.takeFinalsStep sm B) nfa).states = nfa.states ∧
       (∀ j, (∀ f ∈ l, NFA.mapApply sm f ≠ j) →
          actLookup (l.foldl (NFA.takeFinalsStep sm B) nfa).actions j =
            actLookup nfa.actions j)) := by
  intro l
  induction l with
  | nil =>
    intro nfa
    exact ⟨by simp, rfl, rfl, rfl, rfl, fun j _ => rfl⟩
  | cons f l2 ih =>
    intro nfa
    rw [List.foldl_cons]
    rcases hact : actLookup B.actions f with _ | a
    · rw [takeFinalsStep_none sm B nfa f hact]
      obtain ⟨h1, h2, h3, h4, h5, h6⟩ :=
        ih { nfa with final_states := insert (NFA.mapApply sm f) nfa.final_states }
      refine ⟨?_, h2, h3, h4, h5, fun j hj => ?_⟩
      · rw [h1]
        dsimp only
        rw [List.map_cons, List.toFinset_cons, Finset.insert_union,
          Finset.union_insert]
      · rw [h6 j (fun g hg => hj g (List.mem_cons_of_mem f hg))]
    · rw [takeFinalsStep_some sm B nfa f a hact]
      obtain ⟨h1, h2, h3, h4, h5, h6⟩ :=
        ih { nfa with final_states := insert (NFA.mapApply sm f) nfa.final_states
                      actions := (NFA.mapApply sm f, a) :: nfa.actions }
      refine ⟨?_, h2, h3, h4, h5, fun j hj => ?_⟩
      · rw [h1]
        dsimp only
        rw [List.map_cons, List.toFinset_cons, Finset.insert_union,
          Finset.union_insert]
      · rw [h6 j (fun g hg => hj g (List.mem_cons_of_mem f hg))]
        dsimp only
        rw [actLookup_cons, if_neg (hj f (List.mem_cons_self f l2))]

/-- C4 counterexample: with A the NFA of `a` carrying action "ACT" on its
final state 1 and B the NFA of `b`, `NFA::concat(A, B)` does propagate the
action of A's final into the result's action map (at the remapped id 1, which
is no longer final): the claim says actions on A's finals are not
propagated. -/
theorem c4_concat_propagates_first_actions_cex :
    1 ∈ ((NFA.char 97).add_action 1 "ACT").final_states ∧
    actLookup (NFA.concat ((NFA.char 97).add_action 1 "ACT") (NFA.char 98)).actions 1 =
      some "ACT" ∧
    1 ∉ (NFA.concat ((NFA.char 97).add_action 1 "ACT") (NFA.char 98)).final_states :=
  ⟨by decide, by rfl, by decide⟩

/-- C4 (amended): the final states of `NFA::concat(A, B)` are exactly B's
finals remapped through the second copy map; but the actions attached to A's
states - its finals included - ARE all copied into the result (at the
remapped ids), because the state-copying loop of nfa.rs copies the action of
every state of each operand. -/
theorem c4_concat_finals_and_actions (A B : NFA) :
    (NFA.concat A B).final_states =
      B.final_states.image (NFA.mapApply (NFA.concatSecondMap A B)) ∧
    (B.final_states ⊆ B.states →
      ∀ s a, s ∈ A.states → actLookup A.actions s = some a →
        actLookup (NFA.concat A B).actions
          (NFA.mapApply (NFA.concatFirstMap A) s) = some a) := by
  set p1 : NFA × List (Nat × Nat) := NFA.importAll (NFA.defaultNFA, []) A with hp1
  set p2 : NFA × List (Nat × Nat) := NFA.importAll (p1.1, []) B with hp2
  set fm : List (Nat × Nat) := p1.2 with hfmd
  set sm : List (Nat × Nat) := p2.2 with hsmd
  set nfa3 : NFA := { p2.1 with start_state := NFA.mapApply fm A.start_state } with h3d
  set nfa4 : NFA := NFA.copyTransitions nfa3 fm A with h4d
  set nfa5 : NFA := NFA.copyTransitions nfa4 sm B with h5d
  set nfa6 : NFA := NFA.concatLinkFinals nfa5 fm sm A B with h6d
  have hd0 : NFA.defaultNFA.states = Finset.range 0 := rfl
  obtain ⟨hs1, hm1, -, hf1, -, -, hact1⟩ :=
    importGo_spec A (ascList A.states) NFA.defaultNFA [] 0 hd0
  have hs1a : p1.1.states = Finset.range ((ascList A.states).length) := by
    have : p1.1.states = Finset.range (0 + (ascList A.states).length) := hs1
    simpa using this
  obtain ⟨hs2, hm2, -, hf2, -, -, hact2⟩ :=
    importGo_spec B (ascList B.states) p1.1 [] ((ascList A.states).length) hs1a
  have hm1a : fm = (ascList A.states).zip
      (List.range' 0 ((ascList A.states).length)) := by
    have : fm = [] ++ (ascList A.states).zip
        (List.range' 0 ((ascList A.states).length)) := hm1
    simpa using this
  have hm2a : sm = (ascList B.states).zip
      (List.range' ((ascList A.states).length) ((ascList B.states).length)) := by
    have : sm = [] ++ (ascList B.states).zip
        (List.range' ((ascList A.states).length) ((ascList B.states).length)) := hm2
    simpa using this
  have hf2a : p2.1.final_states = ∅ := by
    have h : p2.1.final_states = p1.1.final_states := hf2
    have h0 : p1.1.final_states = NFA.defaultNFA.final_states := hf1
    rw [h, h0]
    rfl
  have hfin6 : nfa6.final_states = ∅ := by
    have e1 : nfa6.final_states = nfa5.final_states :=
      (concatLinkFinals_fields nfa5 fm sm A B).2
    have e2 : nfa5.final_states = nfa4.final_states :=
      (copyTransitions_fields nfa4 sm B).2
    have e3 : nfa4.final_states = nfa3.final_states :=
      (copyTransitions_fields nfa3 fm A).2
    rw [e1, e2, e3]
    exact hf2a
  constructor
  · have hfin1 : (NFA.concat A B).final_states =
        nfa6.final_states ∪
          ((ascList B.final_states).map (NFA.mapApply sm)).toFinset :=
      (takeGo_spec sm B (ascList B.final_states) nfa6).1
    have hsmc : NFA.concatSecondMap A B = sm := rfl
    rw [hfin1, hfin6, Finset.empty_union, hsmc]
    ext x
    simp [mem_ascList]
  · intro hBF s a hsA hact
    have hsl : s ∈ ascList A.states := mem_ascList.mpr hsA
    obtain ⟨⟨idx, hidx⟩, hgets⟩ := List.mem_iff_get.mp hsl
    have hfm0 : NFA.mapApply ((ascList A.states).zip
        (List.range' 0 ((ascList A.states).length))) s = idx := by
      have h0 := mapApply_zip (ascList A.states) (ascList_nodup A.states) 0 idx hidx
      rw [hgets] at h0
      simpa using h0
    have hfm2 : NFA.mapApply (NFA.concatFirstMap A) s = idx := by
      rw [show NFA.concatFirstMap A = (ascList A.states).zip
        (List.range' 0 ((ascList A.states).length)) from hm1a]
      exact hfm0
    have ha1 : actLookup p1.1.actions idx = some a := by
      have h0 := importGo_actions A (ascList A.states) NFA.defaultNFA [] 0 idx
        hidx a hd0 (by rw [hgets]; exact hact)
      simpa using h0
    have ha2 : actLookup p2.1.actions idx = some a := by
      have h0 := hact2 idx hidx
      exact h0.trans ha1
    have ha6 : actLookup nfa6.actions idx = some a := by
      have e1 : nfa6.actions = nfa5.actions :=
        (concatLinkFinals_fields nfa5 fm sm A B).1
      have e2 : nfa5.actions = nfa4.actions :=
        (copyTransitions_fields nfa4 sm B).1
      have e3 : nfa4.actions = nfa3.actions :=
        (copyTransitions_fields nfa3 fm A).1
      rw [e1, e2, e3]
      exact ha2
    have hkeys : ∀ f ∈ ascList B.final_states, NFA.mapApply sm f ≠ idx := by
      intro f hf
      have hfB : f ∈ B.states := hBF (mem_ascList.mp hf)
      have hfl : f ∈ ascList B.states := mem_ascList.mpr hfB
      obtain ⟨⟨j2, hj2⟩, hg2⟩ := List.mem_iff_get.mp hfl
      have h0 := mapApply_zip (ascList B.states) (ascList_nodup B.states)
        ((ascList A.states).length) j2 hj2
      rw [hg2] at h0
      have hsm : NFA.mapApply sm f = (ascList A.states).length + j2 := by
        rw [hm2a]
        exact h0
      rw [hsm]
      omega
    have hfin : actLookup (NFA.concat A B).actions idx =
        actLookup nfa6.actions idx :=
      (takeGo_spec sm B (ascList B.final_states) nfa6).2.2.2.2.2 idx hkeys
    rw [hfm2, hfin]
    exact ha6

theorem c4_concat_finals_and_actions_witness :
    ((NFA.char 98).final_states ⊆ (NFA.char 98).states) ∧
    1 ∈ ((NFA.char 97).add_action 1 "ACT").states ∧
    actLookup ((NFA.char 97).add_action 1 "ACT").actions 1 = some "ACT" ∧
    actLookup
        (NFA.concat ((NFA.char 97).add_action 1 "ACT") (NFA.char 98)).actions
        (NFA.mapApply (NFA.concatFirstMap ((NFA.char 97).add_action 1 "ACT")) 1) =
      some "ACT" :=
  ⟨by decide, by decide, by rfl,
    (c4_concat_finals_and_actions ((NFA.char 97).add_action 1 "ACT") (NFA.char 98)).2 (by decide) 1 "ACT"
      (by decide) (by rfl)⟩

/-- C9: epsilon-closure is idempotent and distributes over union. -/
theorem c9_epsilon_closure_idempotent_and_additive (nfa : NFA)
    (S T : Finset Nat) :
    nfa.epsilon_closure (nfa.epsilon_closure S) = nfa.epsilon_closure S ∧
    nfa.epsilon_closure (S ∪ T) =
      nfa.epsilon_closure S ∪ nfa.epsilon_closure T := by
  constructor
  · ext x
    simp only [mem_epsilon_closure]
    constructor
    · rintro ⟨y, ⟨s, hsS, hsy⟩, hyx⟩
      exact ⟨s, hsS, hsy.trans hyx⟩
    · rintro ⟨s, hsS, hsx⟩
      exact ⟨s, ⟨s, hsS, Relation.ReflTransGen.refl⟩, hsx⟩
  · ext x
    simp only [Finset.mem_union, mem_epsilon_closure]
    constructor
    · rintro ⟨s, hs | hs, hr⟩
      · exact Or.inl ⟨s, hs, hr⟩
      · exact Or.inr ⟨s, hs, hr⟩
    · rintro (⟨s, hs, hr⟩ | ⟨s, hs, hr⟩)
      · exact ⟨s, Or.inl hs, hr⟩
      · exact ⟨s, Or.inr hs, hr⟩

end Lex
